import Mathlib

/-!
Verification of the jinaga-cascade-core incremental dataflow engine.

This development shallowly embeds the parts of the TypeScript source that the
checked properties concern:

* the materialized-tree transforms `addToKeyedArray`, `removeFromKeyedArray`
  and `modifyInKeyedArray` from `src/builder.ts`;
* the `BatchedStateUpdater` from `src/builder.ts`;
* `DefinePropertyStep.getTypeDescriptor` from `src/steps/define-property.ts`
  together with the mutable-property auto-detection of
  `MinMaxAggregateStep` (`src/steps/min-max-aggregate.ts`);
* the event-gating handler logic of `FilterStep` (`src/steps/filter.ts`);
* the per-parent bookkeeping of `AverageAggregateStep`
  (`src/steps/average-aggregate.ts`) and the emission discipline of
  `MinMaxAggregateStep`.

JavaScript numbers are modelled as exact rationals (`Rat`); IEEE-754
rounding is not modelled.  Errors thrown by the source are modelled with
`Except String`, carrying the exact message strings of the source; calls to
`console.warn` are modelled as a `Bool` flag in the result.
-/

namespace Cascade

/-- A JavaScript value as stored in the materialized tree.  `varr` is a keyed
array: a list of `{ key, value }` rows whose `value` is an object, itself a
list of named properties.  `vnull` covers `null`, `vundef` covers
`undefined`, `vbool`, `vnum` and `vstr` cover the remaining primitives.
A truthy non-array value sitting where the transforms expect an array would
be a `TypeError` in the source (`existingItem.value[segment] as KeyedArray`
followed by array operations); that region is outside the modelled domain
and every theorem below stays away from it. -/
inductive Val where
  | vnum (q : Rat)
  | vstr (s : String)
  | vbool (b : Bool)
  | vnull
  | vundef
  | varr (rows : List (String × List (String × Val)))

/-- An object: property name to value, in insertion order (JS objects keep
insertion order and have unique keys). -/
abbrev Props := List (String × Val)

/-- One `{ key, value }` record of a keyed array. -/
abbrev Row := String × Props

/-- `KeyedArray<T>` from `src/builder.ts`: an ordered list of keyed rows. -/
abbrev KeyedArray := List Row

/-- Property lookup on a JS object (first match; JS objects have unique
keys). -/
def lookupProp : Props → String → Option Val
  | [], _ => none
  | (k, v) :: rest, n => if k = n then some v else lookupProp rest n

/-- The JS spread update `{ ...obj, [name]: v }`: an existing key keeps its
position and gets the new value, a fresh key is appended. -/
def setProp : Props → String → Val → Props
  | [], n, v => [(n, v)]
  | (k, w) :: rest, n, v =>
    if k = n then (n, v) :: rest else (k, w) :: setProp rest n v

/-- `existingItem.value[segment] as KeyedArray<any> || []` from
`src/builder.ts`: the nested keyed array under a property name, or the empty
array when the property is absent (or not an array; see the `Val` comment). -/
def getArr (props : Props) (segment : String) : KeyedArray :=
  match lookupProp props segment with
  | some (.varr rows) => rows
  | _ => []

/-- `createKeyToIndexMap(state).get(key)` from `src/builder.ts`: the map is
built with `forEach(set)`, so a later row with the same key overwrites an
earlier one — the lookup yields the index of the LAST row with that key. -/
def keyIndexLast : KeyedArray → String → Option Nat
  | [], _ => none
  | (k, _) :: rest, key =>
    match keyIndexLast rest key with
    | some i => some (i + 1)
    | none => if k = key then some 0 else none

/-- The last row of a keyed array carrying a given key (the row that
`createKeyToIndexMap` resolves the key to). -/
def lastRowWithKey : KeyedArray → String → Option Row
  | [], _ => none
  | r :: rest, key =>
    match lastRowWithKey rest key with
    | some r' => some r'
    | none => if r.1 = key then some r else none

/-- `addToKeyedArray` from `src/builder.ts` (lines 780-818).  At the root
level the new row is appended; at a nested level the parent row is located
via the key-to-index map, the nested array is updated recursively, and the
parent row is rebuilt in place.  A missing parent throws. -/
def addToKeyedArray (state : KeyedArray) (segmentPath keyPath : List String)
    (key : String) (immutableProps : Props) : Except String KeyedArray :=
  match segmentPath with
  | [] =>
    if keyPath ≠ [] then .error "Mismatched path length when setting state"
    else .ok (state ++ [(key, immutableProps)])
  | segment :: restSeg =>
    match keyPath with
    | [] => .error "Mismatched path length when setting state"
    | parentKey :: restKey =>
      match keyIndexLast state parentKey with
      | none => .error "Path references unknown item when setting state"
      | some i =>
        let existingItem := state.getD i ("", [])
        let existingArray := getArr existingItem.2 segment
        (addToKeyedArray existingArray restSeg restKey key immutableProps).map
          fun modifiedArray =>
            state.set i (parentKey, setProp existingItem.2 segment (.varr modifiedArray))

/-- `removeFromKeyedArray` from `src/builder.ts` (lines 820-865).  The Bool
in the result records whether a `console.warn` was emitted.  At the root
level every row with the key is filtered out; a missing parent logs a
warning and skips. -/
def removeFromKeyedArray (state : KeyedArray) (segmentPath keyPath : List String)
    (key : String) : Except String (KeyedArray × Bool) :=
  match segmentPath with
  | [] =>
    if keyPath ≠ [] then .error "Mismatched path length when removing from state"
    else .ok (state.filter fun item => item.1 ≠ key, false)
  | segment :: restSeg =>
    match keyPath with
    | [] => .error "Mismatched path length when removing from state"
    | parentKey :: restKey =>
      match keyIndexLast state parentKey with
      | none => .ok (state, true)
      | some i =>
        let existingItem := state.getD i ("", [])
        let existingArray := getArr existingItem.2 segment
        (removeFromKeyedArray existingArray restSeg restKey key).map
          fun res =>
            (state.set i (parentKey, setProp existingItem.2 segment (.varr res.1)), res.2)

/-- `modifyInKeyedArray` from `src/builder.ts` (lines 867-939).  The Bool in
the result records whether a `console.warn` was emitted.  A missing target
item or missing parent logs a warning and skips. -/
def modifyInKeyedArray (state : KeyedArray) (segmentPath keyPath : List String)
    (key : String) (name : String) (value : Val) : Except String (KeyedArray × Bool) :=
  match segmentPath with
  | [] =>
    if keyPath ≠ [] then .error "Mismatched path length when modifying state"
    else
      match keyIndexLast state key with
      | none => .ok (state, true)
      | some i =>
        let existingItem := state.getD i ("", [])
        .ok (state.set i (key, setProp existingItem.2 name value), false)
  | segment :: restSeg =>
    match keyPath with
    | [] => .error "Mismatched path length when modifying state"
    | parentKey :: restKey =>
      match keyIndexLast state parentKey with
      | none => .ok (state, true)
      | some i =>
        let existingItem := state.getD i ("", [])
        let existingArray := getArr existingItem.2 segment
        (modifyInKeyedArray existingArray restSeg restKey key name value).map
          fun res =>
            (state.set i (parentKey, setProp existingItem.2 segment (.varr res.1)), res.2)

/-- The `BatchedOperation` union type from `src/builder.ts` (lines 25-28). -/
inductive BatchedOperation where
  | add (segmentPath keyPath : List String) (key : String) (immutableProps : Props)
  | remove (segmentPath keyPath : List String) (key : String)
  | modify (segmentPath keyPath : List String) (key : String) (name : String) (value : Val)

/-- One case of the `switch (op.type)` in `BatchedStateUpdater.flush`
(`src/builder.ts` lines 100-112).  The Bool records whether a warning was
logged. -/
def applyOp (state : KeyedArray) : BatchedOperation → Except String (KeyedArray × Bool)
  | .add sp kp k props => (addToKeyedArray state sp kp k props).map fun t => (t, false)
  | .remove sp kp k => removeFromKeyedArray state sp kp k
  | .modify sp kp k n v => modifyInKeyedArray state sp kp k n v

/-- The loop of the transform built in `BatchedStateUpdater.flush`: apply the
queued operations to the tree in queue order, threading the result.  A thrown
error aborts the transform; warning flags are or-combined. -/
def applyOps (state : KeyedArray) : List BatchedOperation → Except String (KeyedArray × Bool)
  | [] => .ok (state, false)
  | op :: ops =>
    (applyOp state op).bind fun res =>
      (applyOps res.1 ops).map fun res' => (res'.1, res.2 || res'.2)

/-- The transform passed to the outer state container's `setState` hook. -/
abbrev StateTransform := KeyedArray → Except String (KeyedArray × Bool)

/-- The observable state of `BatchedStateUpdater` from `src/builder.ts`
(lines 36-141): the pending FIFO queue, the batch-size threshold, and whether
a flush timer is currently scheduled (`flushTimer !== null`). -/
structure BatchedStateUpdater where
  pendingOperations : List BatchedOperation
  batchSize : Nat
  flushTimer : Bool

/-- `BatchedStateUpdater.flush` (lines 82-119): cancel a pending timer; if
the queue is empty do nothing more; otherwise make ONE `setState` call whose
transform applies every queued operation in order, then clear the queue.
The second component lists the transforms passed to `setState` (one entry
per `setState` call). -/
def BatchedStateUpdater.flush (u : BatchedStateUpdater) :
    BatchedStateUpdater × List StateTransform :=
  let u' : BatchedStateUpdater := { u with flushTimer := false }
  if u'.pendingOperations.isEmpty then (u', [])
  else ({ u' with pendingOperations := [] },
        [fun state => applyOps state u.pendingOperations])

/-- `BatchedStateUpdater.scheduleFlush` (lines 66-80): flush immediately when
the queue has reached the batch size, otherwise make sure a timer is
scheduled. -/
def BatchedStateUpdater.scheduleFlush (u : BatchedStateUpdater) :
    BatchedStateUpdater × List StateTransform :=
  if u.batchSize ≤ u.pendingOperations.length then u.flush
  else if u.flushTimer then (u, [])
  else ({ u with flushTimer := true }, [])

/-- `BatchedStateUpdater.add` (lines 51-54): enqueue and schedule. -/
def BatchedStateUpdater.add (u : BatchedStateUpdater) (segmentPath keyPath : List String)
    (key : String) (immutableProps : Props) : BatchedStateUpdater × List StateTransform :=
  BatchedStateUpdater.scheduleFlush
    { u with pendingOperations :=
        u.pendingOperations ++ [.add segmentPath keyPath key immutableProps] }

/-- `BatchedStateUpdater.remove` (lines 56-59): enqueue and schedule. -/
def BatchedStateUpdater.remove (u : BatchedStateUpdater) (segmentPath keyPath : List String)
    (key : String) : BatchedStateUpdater × List StateTransform :=
  BatchedStateUpdater.scheduleFlush
    { u with pendingOperations := u.pendingOperations ++ [.remove segmentPath keyPath key] }

/-- `BatchedStateUpdater.modify` (lines 61-64): enqueue and schedule. -/
def BatchedStateUpdater.modify (u : BatchedStateUpdater) (segmentPath keyPath : List String)
    (key : String) (propertyName : String) (newValue : Val) :
    BatchedStateUpdater × List StateTransform :=
  BatchedStateUpdater.scheduleFlush
    { u with pendingOperations :=
        u.pendingOperations ++ [.modify segmentPath keyPath key propertyName newValue] }

/-- `BatchedStateUpdater.forceFlush` (lines 125-127): just `flush`. -/
def BatchedStateUpdater.forceFlush (u : BatchedStateUpdater) :
    BatchedStateUpdater × List StateTransform :=
  u.flush

/-- `TypeDescriptor` from `src/pipeline.ts`: arrays, objects, and the
`mutableProperties` set (the source's optional field is modelled as a list,
empty when absent, matching the source's `|| []` reads). -/
inductive TypeDescriptor where
  | mk (arrays : List (String × TypeDescriptor))
       (objects : List (String × TypeDescriptor))
       (mutableProperties : List String)

def TypeDescriptor.arrays : TypeDescriptor → List (String × TypeDescriptor)
  | .mk a _ _ => a

def TypeDescriptor.objects : TypeDescriptor → List (String × TypeDescriptor)
  | .mk _ o _ => o

def TypeDescriptor.mutableProperties : TypeDescriptor → List String
  | .mk _ _ m => m

/-- `getMutablePropertiesOfArrayItems` from `src/pipeline.ts`: navigate the
descriptor along the segment path through `arrays` and return the final
node's `mutableProperties`, or `[]` if the path is invalid. -/
def getMutablePropertiesOfArrayItems (descriptor : TypeDescriptor) :
    List String → List String
  | [] => descriptor.mutableProperties
  | segment :: rest =>
    match descriptor.arrays.find? fun a => a.1 = segment with
    | none => []
    | some a => getMutablePropertiesOfArrayItems a.2 rest

/-- `DefinePropertyStep.getTypeDescriptor` from `src/steps/define-property.ts`
(lines 39-52): when the step has mutable dependencies, append
`propertyName` to the INPUT descriptor's top-level `mutableProperties`
(unless already present).  The step's scope segment path plays no role
here. -/
def definePropertyGetTypeDescriptor (inputDescriptor : TypeDescriptor)
    (propertyName : String) (mutableProperties : List String) : TypeDescriptor :=
  if 0 < mutableProperties.length then
    let existingMutableProps := inputDescriptor.mutableProperties
    if existingMutableProps.contains propertyName then inputDescriptor
    else .mk inputDescriptor.arrays inputDescriptor.objects
      (existingMutableProps ++ [propertyName])
  else inputDescriptor

/-- The auto-detection performed in the `MinMaxAggregateStep` constructor
(`src/steps/min-max-aggregate.ts` lines 49-56): the aggregated property is
treated as mutable exactly when it occurs in the ROOT-level
`mutableProperties` of the upstream descriptor. -/
def minMaxIsPropertyMutable (inputDescriptor : TypeDescriptor)
    (numericProperty : String) : Bool :=
  inputDescriptor.mutableProperties.contains numericProperty

/-- Modelled from the spec: `pathsMatch` from `src/util/path.ts` (the file is
not present under src/); spec §4.1 defines it as sequence equality. -/
def pathsMatch (a b : List String) : Bool := a == b

/-- Modelled from the spec: `pathStartsWith` from `src/util/path.ts` (the
file is not present under src/); spec §4.1 defines `path_starts_with(a,b)`
as "b is a prefix of a". -/
def pathStartsWith (a b : List String) : Bool := b.isPrefixOf a

/-- `Map.get` on a string-keyed JS `Map`, modelled as an association list in
insertion order. -/
def mapGet {α : Type} : List (String × α) → String → Option α
  | [], _ => none
  | (k, v) :: rest, key => if k = key then some v else mapGet rest key

/-- `Map.set`: overwriting keeps the entry's position, a fresh key is
appended (JS `Map` iteration order). -/
def mapSet {α : Type} : List (String × α) → String → α → List (String × α)
  | [], key, v => [(key, v)]
  | (k, w) :: rest, key, v =>
    if k = key then (key, v) :: rest else (k, w) :: mapSet rest key v

/-- `Map.delete`. -/
def mapDelete {α : Type} : List (String × α) → String → List (String × α)
  | [], _ => []
  | (k, v) :: rest, key => if k = key then rest else (k, v) :: mapDelete rest key

/-- The per-row state of `FilterStep` (`src/steps/filter.ts` lines 7-12). -/
structure FilterItemState where
  immutableProps : Props
  mutableValues : List (String × Val)
  keyPath : List String
  passed : Bool

/-- `FilterStep.composeItem` (lines 68-74): the immutable props overlaid
with the tracked mutable values (a missing tracked value reads as
`undefined`, exactly as `mutableValues.get(propName)` does). -/
def composeItem (mutableProperties : List String) (immutableProps : Props)
    (mutableValues : List (String × Val)) : Props :=
  mutableProperties.foldl
    (fun acc propName => setProp acc propName ((mapGet mutableValues propName).getD .vundef))
    immutableProps

/-- `FilterStep.isNestedPath` (lines 95-98). -/
def isNestedPath (scopeSegments pathSegments : List String) : Bool :=
  scopeSegments.length < pathSegments.length && pathStartsWith pathSegments scopeSegments

/-- `FilterStep.getParentKeyFromKeyPath` (lines 85-90): ONLY for a
root-level filter (`scopeSegments = []`) is the parent key derived (the
first element of the key path); any other scope yields `undefined`. -/
def getParentKeyFromKeyPath (scopeSegments keyPath : List String) : Option String :=
  if scopeSegments = [] ∧ keyPath ≠ [] then keyPath.head? else none

/-- An entry of the `pendingNestedAdds` buffer of `FilterStep` (line 39). -/
structure PendingNestedAdd where
  pathSegments : List String
  keyPath : List String
  key : String
  immutableProps : Props

/-- The handler body that `FilterStep.onAdded` registers upstream for a
NESTED path (`src/steps/filter.ts` lines 201-219), as a function of the
step's current state.  Returns the updated `pendingNestedAdds` buffer and
whether the event was forwarded to the downstream handler.  The source
guard `if (parentKey)` is JS truthiness: an empty-string parent key also
takes the pass-through branch. -/
def filterNestedAdd (scopeSegments : List String)
    (itemStates : List (String × FilterItemState))
    (pendingNestedAdds : List (String × List PendingNestedAdd))
    (pathSegments keyPath : List String) (key : String) (immutableProps : Props) :
    List (String × List PendingNestedAdd) × Bool :=
  match getParentKeyFromKeyPath scopeSegments keyPath with
  | some parentKey =>
    if parentKey = "" then (pendingNestedAdds, true)
    else
      match mapGet itemStates parentKey with
      | some parentState =>
        if parentState.passed then (pendingNestedAdds, true)
        else
          (mapSet pendingNestedAdds parentKey
            ((mapGet pendingNestedAdds parentKey).getD [] ++
              [⟨pathSegments, keyPath, key, immutableProps⟩]), false)
      | none =>
        (mapSet pendingNestedAdds parentKey
          ((mapGet pendingNestedAdds parentKey).getD [] ++
            [⟨pathSegments, keyPath, key, immutableProps⟩]), false)
  | none => (pendingNestedAdds, true)

/-- The `mutableValues` snapshot the scope-level `onAdded` handler of
`FilterStep` builds from the incoming props (`src/steps/filter.ts`
lines 175-179): each tracked property is read from the immutable props
(`undefined` when absent). -/
def initialMutableValues (mutableProperties : List String) (immutableProps : Props) :
    List (String × Val) :=
  mutableProperties.foldl
    (fun acc propName => mapSet acc propName ((lookupProp immutableProps propName).getD .vundef))
    []

/-- The handler body that `FilterStep.onAdded` registers upstream at the
SCOPE path (`src/steps/filter.ts` lines 174-194): evaluate the predicate on
the composed item, record the row's state (passing or not), and forward the
event only when it passes.  Returns the updated `itemStates` and whether the
event was forwarded. -/
def filterScopeAdd (mutableProperties : List String) (predicate : Props → Bool)
    (itemStates : List (String × FilterItemState))
    (keyPath : List String) (key : String) (immutableProps : Props) :
    List (String × FilterItemState) × Bool :=
  let mutableValues := initialMutableValues mutableProperties immutableProps
  let passes := predicate (composeItem mutableProperties immutableProps mutableValues)
  (mapSet itemStates key ⟨immutableProps, mutableValues, keyPath, passes⟩, passes)

/-- The numeric reading of a JS property value as the aggregate steps see
it: `missing` models `null`/`undefined` (checked before any conversion),
`nonNumeric` a non-null value whose `Number(...)` is `NaN`, and `num q` a
value converting to the number `q`. -/
inductive NumVal where
  | missing
  | nonNumeric
  | num (q : Rat)
deriving DecidableEq

/-- The `AverageState` record of `src/steps/average-aggregate.ts`
(lines 13-17). -/
structure AverageState where
  sum : Rat
  count : Int
  average : Option Rat

/-- The slice of `AverageAggregateStep`'s maps belonging to one parent
key-path hash: the `averageStates` entry, the `aggregateValues` entry, and
the `itemValues` entry.  (Handlers for distinct parents touch disjoint
entries, so one parent's evolution is self-contained.) -/
structure AverageParentState where
  averageState : Option AverageState
  aggregateValue : Option Rat
  itemValues : List (String × Rat)

/-- `AverageAggregateStep.handleItemAdded` (`src/steps/average-aggregate.ts`
lines 133-187) restricted to one parent.  The second component is the list
of `(oldAverage, newAverage)` pairs passed to the registered modified
handlers (each registered handler receives each pair once). -/
def averageHandleItemAdded (isPropertyMutable : Bool) (st : AverageParentState)
    (itemKey : String) (value : NumVal) :
    AverageParentState × List (Option Rat × Option Rat) :=
  if isPropertyMutable ∧ value = NumVal.missing then (st, [])
  else
    let st₁ :=
      match value with
      | .num q =>
        let state := st.averageState.getD ⟨0, 0, none⟩
        let state := { state with sum := state.sum + q, count := state.count + 1 }
        let state := { state with average := some (state.sum / (state.count : Rat)) }
        { st with itemValues := mapSet st.itemValues itemKey q,
                  averageState := some state }
      | _ => st
    let oldAverage := st₁.aggregateValue
    let newAverage :=
      match st₁.averageState with
      | some state => if 0 < state.count then state.average else none
      | none => none
    ({ st₁ with aggregateValue := newAverage }, [(oldAverage, newAverage)])

/-- `AverageAggregateStep.handleItemRemoved`
(`src/steps/average-aggregate.ts` lines 274-343) restricted to one parent. -/
def averageHandleItemRemoved (isPropertyMutable : Bool) (st : AverageParentState)
    (itemKey : String) (value : NumVal) :
    AverageParentState × List (Option Rat × Option Rat) :=
  let lookupRes : Option Rat × List (String × Rat) :=
    if isPropertyMutable then (mapGet st.itemValues itemKey, mapDelete st.itemValues itemKey)
    else (match value with | .num q => some q | _ => none, st.itemValues)
  let valueToRemove := lookupRes.1
  let st₁ := { st with itemValues := lookupRes.2 }
  let st₂ :=
    match valueToRemove with
    | some v =>
      match st₁.averageState with
      | some state =>
        let state := { state with sum := state.sum - v, count := state.count - 1 }
        if state.count = 0 then { st₁ with averageState := none }
        else { st₁ with
          averageState := some { state with average := some (state.sum / (state.count : Rat)) } }
      | none => st₁
    | none => st₁
  let oldAverage := st₂.aggregateValue
  let newAverage :=
    match st₂.averageState with
    | some state => if 0 < state.count then state.average else none
    | none => none
  let st₃ :=
    match st₂.averageState with
    | some state =>
      if state.count = 0 then { st₂ with aggregateValue := none }
      else { st₂ with aggregateValue := newAverage }
    | none => { st₂ with aggregateValue := none }
  (st₃, [(oldAverage, newAverage)])

/-- A child-level `added` or `removed` event as an aggregate step sees it:
the item key and the numeric reading of the aggregated property in the
event's props. -/
inductive ChildEvent where
  | added (key : String) (value : NumVal)
  | removed (key : String) (value : NumVal)

/-- Dispatch of one upstream event to the average step's handler. -/
def averageStep (isPropertyMutable : Bool) (st : AverageParentState) :
    ChildEvent → AverageParentState × List (Option Rat × Option Rat)
  | .added k v => averageHandleItemAdded isPropertyMutable st k v
  | .removed k v => averageHandleItemRemoved isPropertyMutable st k v

/-- Run a sequence of child events through the average step, collecting all
emitted `(oldAverage, newAverage)` pairs in order. -/
def runAverageEvents (isPropertyMutable : Bool) (st : AverageParentState) :
    List ChildEvent → AverageParentState × List (Option Rat × Option Rat)
  | [] => (st, [])
  | e :: es =>
    let r := averageStep isPropertyMutable st e
    let r' := runAverageEvents isPropertyMutable r.1 es
    (r'.1, r.2 ++ r'.2)

/-- The set of currently live children (key and numeric reading), derived
from an event sequence: an add appends, a remove deletes the key's row. -/
def liveAfter : List (String × NumVal) → List ChildEvent → List (String × NumVal)
  | live, [] => live
  | live, .added k v :: es => liveAfter (live ++ [(k, v)]) es
  | live, .removed k _ :: es => liveAfter (live.filter fun p => p.1 ≠ k) es

/-- Well-formedness of an event sequence relative to the current live set:
an added key is not currently live, and a removed event names a live key and
carries the same value as the matching add (spec §6: "props must equal the
props originally added"). -/
def wellFormedFrom : List (String × NumVal) → List ChildEvent → Bool
  | _, [] => true
  | live, .added k v :: es =>
    live.all (fun p => p.1 ≠ k) && wellFormedFrom (live ++ [(k, v)]) es
  | live, .removed k v :: es =>
    decide (mapGet live k = some v) &&
      wellFormedFrom (live.filter fun p => p.1 ≠ k) es

/-- The numeric values of the live children, in order. -/
def liveNumericValues (live : List (String × NumVal))  : List Rat :=
  live.filterMap fun p => match p.2 with | .num q => some q | _ => none

/-- The aggregate recomputed from scratch over the live children: sum over
count, absent when no live child has a numeric value. -/
def freshAverage (live : List (String × NumVal)) : Option Rat :=
  let vals := liveNumericValues live
  if vals.length = 0 then none else some (vals.sum / (vals.length : Rat))

/-- The slice of `MinMaxAggregateStep`'s maps belonging to one parent
key-path hash (`src/steps/min-max-aggregate.ts`): the `valueStore` entry
(read back as `get(hash) || []` and deleted when empty, so the empty list
models an absent entry), the `aggregateValues` entry, and the `itemValues`
entry. -/
structure MinMaxParentState where
  values : List Rat
  aggregateValue : Option Rat
  itemValues : List (String × Rat)

/-- The `(keyPathToParent, parentKey)` pair the min-max step derives from
the upstream child key path when emitting (lines 166-178). -/
def minMaxEmitTarget (parentKeyPath : List String) : List String × String :=
  if parentKeyPath ≠ [] then (parentKeyPath.dropLast, parentKeyPath.getLastD "")
  else ([], "")

/-- `MinMaxAggregateStep.handleItemAdded` (`src/steps/min-max-aggregate.ts`
lines 127-179) restricted to one parent.  `modifiedHandlers` is the list of
registered parent-level handlers (identified by name); the second component
records, in order, one invocation per handler with its payload. -/
def minMaxHandleItemAdded (isPropertyMutable : Bool) (aggregateFn : List Rat → Rat)
    (modifiedHandlers : List String) (st : MinMaxParentState)
    (keyPath : List String) (itemKey : String) (value : NumVal) :
    MinMaxParentState × List (String × List String × String × Option Rat × Option Rat) :=
  if isPropertyMutable ∧ value = NumVal.missing then (st, [])
  else
    let st₁ :=
      match value with
      | .num q =>
        { st with itemValues := mapSet st.itemValues itemKey q,
                  values := st.values ++ [q] }
      | _ => st
    let values := st₁.values
    let oldAggregate := st₁.aggregateValue
    let newAggregate := if 0 < values.length then some (aggregateFn values) else none
    let st₂ := { st₁ with aggregateValue := newAggregate }
    let target := minMaxEmitTarget keyPath
    (st₂, modifiedHandlers.map fun h => (h, target.1, target.2, oldAggregate, newAggregate))

/-- `MinMaxAggregateStep.handleItemRemoved`
(`src/steps/min-max-aggregate.ts` lines 260-328) restricted to one parent.
`values.indexOf` / `splice` delete the first occurrence of the removed
value, modelled by `List.erase`. -/
def minMaxHandleItemRemoved (isPropertyMutable : Bool) (aggregateFn : List Rat → Rat)
    (modifiedHandlers : List String) (st : MinMaxParentState)
    (keyPath : List String) (itemKey : String) (value : NumVal) :
    MinMaxParentState × List (String × List String × String × Option Rat × Option Rat) :=
  let lookupRes : Option Rat × List (String × Rat) :=
    if isPropertyMutable then (mapGet st.itemValues itemKey, mapDelete st.itemValues itemKey)
    else (match value with | .num q => some q | _ => none, st.itemValues)
  let valueToRemove := lookupRes.1
  let st₁ := { st with itemValues := lookupRes.2 }
  let st₂ :=
    match valueToRemove with
    | some v =>
      if st₁.values ≠ [] ∧ v ∈ st₁.values then { st₁ with values := st₁.values.erase v }
      else st₁
    | none => st₁
  let values := st₂.values
  let oldAggregate := st₂.aggregateValue
  let newAggregate := if 0 < values.length then some (aggregateFn values) else none
  let st₃ :=
    if values.length = 0 then { st₂ with aggregateValue := none }
    else { st₂ with aggregateValue := newAggregate }
  let target := minMaxEmitTarget keyPath
  (st₃, modifiedHandlers.map fun h => (h, target.1, target.2, oldAggregate, newAggregate))

/-- Verification-side: `Math.min(...values)` as the builder's `min` method
passes it (`src/builder.ts` line 457); only ever applied to non-empty
lists. -/
def mathMin : List Rat → Rat
  | [] => 0
  | q :: qs => qs.foldl min q

/-- Verification-side: a JS value that is not a nested keyed array. -/
def Val.isScalar : Val → Bool
  | .varr _ => false
  | _ => true

/-- Verification-side: props carrying no nested keyed arrays (the shape of
the event payloads the output binder enqueues). -/
def propsScalar (props : Props) : Bool :=
  props.all fun p => p.2.isScalar

/-- Verification-side: operations whose payloads carry no nested keyed
arrays. -/
def opScalar : BatchedOperation → Bool
  | .add _ _ _ props => propsScalar props
  | .remove _ _ _ => true
  | .modify _ _ _ _ v => v.isScalar

/-- Verification-side: every parent along the path resolves through the
key-to-index lookup AND each traversed segment property is present as an
array (so a rebuild writes back exactly what was read). -/
def segsResolved : KeyedArray → List String → List String → Bool
  | _, [], [] => true
  | state, segment :: restSeg, parentKey :: restKey =>
    match keyIndexLast state parentKey with
    | none => false
    | some i =>
      match lookupProp (state.getD i ("", [])).2 segment with
      | some (.varr rows) => segsResolved rows restSeg restKey
      | _ => false
  | _, _, _ => false

/-- Verification-side: the keyed array a (segment path, key path) pair
points at, resolving parents the way the transforms do. -/
def rowsAt : KeyedArray → List String → List String → Option KeyedArray
  | state, [], [] => some state
  | state, segment :: restSeg, parentKey :: restKey =>
    match keyIndexLast state parentKey with
    | none => none
    | some i => rowsAt (getArr (state.getD i ("", [])).2 segment) restSeg restKey
  | _, _, _ => none

/-- Verification-side: the row keys at a location, `[]` when the location is
unreachable. -/
def keysAt (state : KeyedArray) (segmentPath keyPath : List String) : List String :=
  ((rowsAt state segmentPath keyPath).getD []).map Prod.fst

/-- Verification-side: the target array resolves and does not yet contain
the key. -/
def targetKeyAbsent (state : KeyedArray) (segmentPath keyPath : List String)
    (key : String) : Bool :=
  match rowsAt state segmentPath keyPath with
  | some rows => (keyIndexLast rows key).isNone
  | none => false

/-- Verification-side: the keys of the add operations targeting a location,
in application order. -/
def addKeysAt (segmentPath keyPath : List String) (ops : List BatchedOperation) :
    List String :=
  ops.filterMap fun op =>
    match op with
    | .add sp kp k _ => if sp = segmentPath ∧ kp = keyPath then some k else none
    | _ => none

/-- Verification-side: the `averageStates` entry recomputed from scratch
from the live children. -/
def avgStateOf (live : List (String × NumVal)) : Option AverageState :=
  let vals := liveNumericValues live
  if vals.length = 0 then none
  else some ⟨vals.sum, (vals.length : Int), some (vals.sum / (vals.length : Rat))⟩

/-- Verification-side: the `newAverage` the handlers derive from an
`averageStates` entry (`(state && state.count > 0) ? state.average :
undefined`). -/
def newAverageOf : Option AverageState → Option Rat
  | some state => if 0 < state.count then state.average else none
  | none => none

/-- Verification-side: the expected `newAverage` component of each emission,
one per event, recomputed from scratch after that event. -/
def emissionTrace : List (String × NumVal) → List ChildEvent → List (Option Rat)
  | _, [] => []
  | live, .added k v :: es =>
    freshAverage (live ++ [(k, v)]) :: emissionTrace (live ++ [(k, v)]) es
  | live, .removed k _ :: es =>
    freshAverage (live.filter fun p => p.1 ≠ k) ::
      emissionTrace (live.filter fun p => p.1 ≠ k) es

/-! ## Helper lemmas -/

theorem lookupProp_setProp (props : Props) (n m : String) (v : Val) :
    lookupProp (setProp props n v) m = if m = n then some v else lookupProp props m := by
  induction props with
  | nil =>
    by_cases h : m = n
    · simp [setProp, lookupProp, h]
    · simp [setProp, lookupProp, h, Ne.symm h]
  | cons p rest ih =>
    obtain ⟨k, w⟩ := p
    by_cases hk : k = n
    · subst hk
      by_cases hm : m = k
      · subst hm
        simp [setProp, lookupProp]
      · simp [setProp, lookupProp, hm, Ne.symm hm]
    · by_cases hm : m = k
      · subst hm
        have hmn : ¬ m = n := hk
        simp [setProp, lookupProp, hk, hmn]
      · simp [setProp, lookupProp, hk, Ne.symm hm, hm, ih]

theorem setProp_lookup_self (props : Props) (n : String) (v : Val)
    (h : lookupProp props n = some v) : setProp props n v = props := by
  induction props with
  | nil => simp [lookupProp] at h
  | cons p rest ih =>
    obtain ⟨k, w⟩ := p
    simp only [lookupProp] at h
    simp only [setProp]
    by_cases hk : k = n
    · subst hk
      simp only [if_pos rfl] at h ⊢
      obtain rfl : w = v := by simpa using h
      rfl
    · simp only [if_neg hk] at h ⊢
      rw [ih h]

theorem setProp_setProp (props : Props) (n : String) (v w : Val) :
    setProp (setProp props n v) n w = setProp props n w := by
  induction props with
  | nil => simp [setProp]
  | cons p rest ih =>
    obtain ⟨k, u⟩ := p
    simp only [setProp]
    by_cases hk : k = n
    · simp [hk, setProp]
    · simp [hk, setProp, ih]

theorem getArr_setProp (props : Props) (n m : String) (rows : KeyedArray) :
    getArr (setProp props n (.varr rows)) m = if m = n then rows else getArr props m := by
  unfold getArr
  rw [lookupProp_setProp]
  by_cases h : m = n <;> simp [h]

theorem getArr_setProp_scalar (props : Props) (n m : String) (v : Val)
    (hv : v.isScalar = true) :
    getArr (setProp props n v) m = if m = n then [] else getArr props m := by
  unfold getArr
  rw [lookupProp_setProp]
  by_cases h : m = n
  · simp only [h, if_pos rfl]
    cases v <;> simp_all [Val.isScalar]
  · simp [h]

theorem propsScalar_getArr (props : Props) (s : String)
    (h : propsScalar props = true) : getArr props s = [] := by
  induction props with
  | nil => rfl
  | cons p rest ih =>
    obtain ⟨k, v⟩ := p
    simp only [propsScalar, List.all_cons, Bool.and_eq_true] at h
    simp only [getArr, lookupProp]
    by_cases hk : k = s
    · simp only [if_pos hk]
      cases v <;> simp_all [Val.isScalar]
    · simp only [if_neg hk]
      have := ih (by simpa [propsScalar] using h.2)
      simpa [getArr] using this

/-! ## C8 -/

/-- C8: `addToKeyedArray` performs no sibling-key uniqueness check — at the
root level it unconditionally appends the new row, and adding a key that is
already present among the target siblings produces an array with two rows of
the same key.  Sibling-key uniqueness is a precondition on the step graph,
not enforced by the transforms. -/
theorem addToKeyedArray_no_uniqueness_check :
    (∀ (state : KeyedArray) (key : String) (props : Props),
      addToKeyedArray state [] [] key props = .ok (state ++ [(key, props)])) ∧
    addToKeyedArray [("k", [])] [] [] "k" [] = .ok [("k", []), ("k", [])] ∧
    (([("k", []), ("k", [])] : KeyedArray).countP fun r => r.1 == "k") = 2 := by
  refine ⟨fun state key props => ?_, by rfl, by rfl⟩
  simp [addToKeyedArray]

/-! ## C10 -/

/-- C10: calling `flush` (hence also `forceFlush`) on a `BatchedStateUpdater`
with an empty pending queue makes no `setState` call; the only effect is
clearing a pending flush timer. -/
theorem flush_empty_noop (u : BatchedStateUpdater) (h : u.pendingOperations = []) :
    u.flush = ({ u with flushTimer := false }, []) ∧
    u.forceFlush = ({ u with flushTimer := false }, []) := by
  have : u.flush = ({ u with flushTimer := false }, []) := by
    unfold BatchedStateUpdater.flush
    simp [h]
  exact ⟨this, this⟩

/-- Witness for C10 at a concrete updater. -/
theorem flush_empty_noop_witness :
    (⟨[], 50, true⟩ : BatchedStateUpdater).flush = (⟨[], 50, false⟩, []) := by
  exact (flush_empty_noop ⟨[], 50, true⟩ rfl).1

/-! ## C7 -/

/-- C7: flushing a non-empty queue makes exactly one `setState` call, whose
transform applies every queued operation to the tree in enqueue order
(`applyOps` threads the tree through the operations front-to-back), after
which the queue is empty; and an enqueue that brings the queue up to the
batch-size threshold triggers that flush immediately and synchronously. -/
theorem batchedStateUpdater_flush_in_order (u : BatchedStateUpdater)
    (h : u.pendingOperations ≠ []) :
    u.flush.2 = [fun state => applyOps state u.pendingOperations] ∧
    u.flush.1.pendingOperations = [] ∧
    (∀ (sp kp : List String) (key : String) (props : Props),
      u.batchSize ≤ u.pendingOperations.length + 1 →
      (u.add sp kp key props).2 =
        [fun state => applyOps state (u.pendingOperations ++ [.add sp kp key props])]) := by
  have hne : (u.pendingOperations.isEmpty) = false := by
    cases hp : u.pendingOperations with
    | nil => exact absurd hp h
    | cons a l => rfl
  refine ⟨?_, ?_, ?_⟩
  · unfold BatchedStateUpdater.flush
    simp [hne]
  · unfold BatchedStateUpdater.flush
    simp [hne]
  · intro sp kp key props hthr
    unfold BatchedStateUpdater.add BatchedStateUpdater.scheduleFlush
    have hlen : u.batchSize ≤ (u.pendingOperations ++
        [BatchedOperation.add sp kp key props]).length := by
      simpa using hthr
    simp only [hlen, if_pos]
    unfold BatchedStateUpdater.flush
    simp

/-- Witness for C7 at a concrete updater (queue of one operation, batch size
two, so the next enqueue reaches the threshold). -/
theorem batchedStateUpdater_flush_in_order_witness :
    (⟨[.remove [] [] "a"], 2, false⟩ : BatchedStateUpdater).flush.2 =
      [fun state => applyOps state [.remove [] [] "a"]] ∧
    ((⟨[.remove [] [] "a"], 2, false⟩ : BatchedStateUpdater).add [] [] "b" []).2 =
      [fun state => applyOps state [.remove [] [] "a", .add [] [] "b" []]] := by
  have h := batchedStateUpdater_flush_in_order ⟨[.remove [] [] "a"], 2, false⟩ (by simp)
  exact ⟨h.1, h.2.2 [] [] "b" [] (by simp)⟩

/-! ## C1 -/

/-- C1 counterexample: for a `DefinePropertyStep` with non-empty mutable
dependencies and the non-empty scope segment path `["items"]`, the property
name does NOT appear in the `mutableProperties` of the descriptor node
reached by following the scope segment path — the step writes it to the
root level instead. -/
theorem defineProperty_scope_mutable_counterexample :
    ¬ "adj" ∈ getMutablePropertiesOfArrayItems
        (definePropertyGetTypeDescriptor
          (.mk [("items", .mk [] [] [])] [] []) "adj" ["total"])
        ["items"] := by
  decide

/-- C1 amended: for every `DefinePropertyStep` constructed with a non-empty
`mutable_dependencies` list, the descriptor returned by `getTypeDescriptor`
contains `property_name` in the ROOT-level `mutableProperties` (regardless
of the scope segment path), and that root-level entry is exactly what the
downstream `MinMaxAggregateStep` constructor consults to auto-subscribe to
modified events for the property. -/
theorem defineProperty_mutable_at_root (inputDescriptor : TypeDescriptor)
    (propertyName : String) (mutableProperties : List String)
    (h : mutableProperties ≠ []) :
    propertyName ∈ (definePropertyGetTypeDescriptor inputDescriptor propertyName
        mutableProperties).mutableProperties ∧
    minMaxIsPropertyMutable
      (definePropertyGetTypeDescriptor inputDescriptor propertyName mutableProperties)
      propertyName = true := by
  have hlen : 0 < mutableProperties.length := List.length_pos.mpr h
  have hmem : propertyName ∈ (definePropertyGetTypeDescriptor inputDescriptor propertyName
      mutableProperties).mutableProperties := by
    unfold definePropertyGetTypeDescriptor
    rw [if_pos hlen]
    by_cases hc : inputDescriptor.mutableProperties.contains propertyName = true
    · rw [if_pos hc]
      simpa using hc
    · rw [if_neg hc]
      simp [TypeDescriptor.mutableProperties]
  refine ⟨hmem, ?_⟩
  unfold minMaxIsPropertyMutable
  simpa using hmem

/-- Witness for C1 (amended) at a concrete descriptor. -/
theorem defineProperty_mutable_at_root_witness :
    "adj" ∈ (definePropertyGetTypeDescriptor (.mk [] [] []) "adj" ["total"]).mutableProperties ∧
    minMaxIsPropertyMutable (definePropertyGetTypeDescriptor (.mk [] [] []) "adj" ["total"])
      "adj" = true :=
  defineProperty_mutable_at_root (.mk [] [] []) "adj" ["total"] (by simp)

/-! ## C2 -/

/-- C2 counterexample: a `FilterStep` with the NON-empty scope segment path
`["a"]` forwards a nested `added` event (path `["a", "b"]`) even though the
parent row `"p"` is tracked with `passed = false`: the event is neither
suppressed nor buffered, because `getParentKeyFromKeyPath` derives a parent
key only for root-level filters. -/
theorem filter_nested_gating_counterexample :
    isNestedPath ["a"] ["a", "b"] = true ∧
    (filterNestedAdd ["a"] [("p", ⟨[], [], ["r"], false⟩)] []
      ["a", "b"] ["r", "p"] "c" []).2 = true :=
  ⟨rfl, rfl⟩

/-- C2 amended: for a `FilterStep` whose scope segment path is empty (a
root-level filter): a scope-level row failing the predicate is recorded with
`passed = false` and not forwarded, and a nested `added` event (non-empty
key path, non-empty parent key) whose parent row is unknown or does not
currently pass is appended to the per-row `pendingNestedAdds` buffer instead
of being forwarded.  (A filter at a non-empty scope forwards nested events
unconditionally — see the counterexample.) -/
theorem filter_root_scope_gating (mutableProperties : List String)
    (predicate : Props → Bool) (itemStates : List (String × FilterItemState))
    (pendingNestedAdds : List (String × List PendingNestedAdd))
    (pathSegments keyPath : List String) (key : String) (immutableProps : Props) :
    (predicate (composeItem mutableProperties immutableProps
        (initialMutableValues mutableProperties immutableProps)) = false →
      filterScopeAdd mutableProperties predicate itemStates keyPath key immutableProps =
        (mapSet itemStates key
          ⟨immutableProps, initialMutableValues mutableProperties immutableProps,
            keyPath, false⟩, false)) ∧
    (∀ parentKey rest, keyPath = parentKey :: rest → parentKey ≠ "" →
      (mapGet itemStates parentKey = none ∨
        ∃ ps, mapGet itemStates parentKey = some ps ∧ ps.passed = false) →
      filterNestedAdd [] itemStates pendingNestedAdds pathSegments keyPath key immutableProps =
        (mapSet pendingNestedAdds parentKey
          ((mapGet pendingNestedAdds parentKey).getD [] ++
            [⟨pathSegments, keyPath, key, immutableProps⟩]), false)) := by
  constructor
  · intro hpred
    unfold filterScopeAdd
    simp [hpred]
  · rintro parentKey rest rfl hne hstate
    unfold filterNestedAdd getParentKeyFromKeyPath
    rcases hstate with hnone | ⟨ps, hps, hpassed⟩
    · simp [List.cons_ne_nil, hne, hnone]
    · simp [List.cons_ne_nil, hne, hps, hpassed]

/-- Witness for C2 (amended) at concrete inputs: a failing row is recorded
and not forwarded, and a nested add under an unknown parent is queued. -/
theorem filter_root_scope_gating_witness :
    filterScopeAdd [] (fun _ => false) [] [] "x" [] =
      ([("x", ⟨[], [], [], false⟩)], false) ∧
    filterNestedAdd [] [] [] ["a"] ["p"] "c" [] =
      ([("p", [⟨["a"], ["p"], "c", []⟩])], false) := by
  constructor
  · exact (filter_root_scope_gating [] (fun _ => false) [] [] [] [] "x" []).1 rfl
  · exact (filter_root_scope_gating [] (fun _ => false) [] [] ["a"] ["p"] "c" []).2
      "p" [] rfl (by simp) (Or.inl rfl)

/-! ## Key-index toolkit -/

theorem keyIndexLast_spec : ∀ {state : KeyedArray} {key : String} {i : Nat},
    keyIndexLast state key = some i →
    i < state.length ∧ (state.getD i ("", [])).1 = key ∧
      lastRowWithKey state key = some (state.getD i ("", [])) := by
  intro state
  induction state with
  | nil => intro key i h; simp [keyIndexLast] at h
  | cons r rest ih =>
    intro key i h
    obtain ⟨k, w⟩ := r
    simp only [keyIndexLast] at h
    cases hrest : keyIndexLast rest key with
    | some j =>
      rw [hrest] at h
      obtain rfl : i = j + 1 := by simpa using h.symm
      obtain ⟨hlt, hkey, hlast⟩ := ih hrest
      refine ⟨by simpa using Nat.succ_lt_succ hlt, ?_, ?_⟩
      · simpa [List.getD] using hkey
      · simp only [lastRowWithKey, hlast]
        simp [List.getD]
    | none =>
      rw [hrest] at h
      by_cases hk : k = key
      · rw [if_pos hk] at h
        obtain rfl : i = 0 := by simpa using h.symm
        have hnone : lastRowWithKey rest key = none := by
          clear ih h
          induction rest with
          | nil => rfl
          | cons r' rest' ih' =>
            simp only [keyIndexLast] at hrest
            cases h' : keyIndexLast rest' key with
            | some j => rw [h'] at hrest; simp at hrest
            | none =>
              rw [h'] at hrest
              simp only [lastRowWithKey, ih' h']
              by_cases hr : r'.1 = key
              · rw [if_pos hr] at hrest; simp at hrest
              · rw [if_neg hr]
        refine ⟨by simp, by simpa [List.getD] using hk, ?_⟩
        simp [lastRowWithKey, hnone, hk, List.getD]
      · rw [if_neg hk] at h
        simp at h

theorem keyIndexLast_none_iff {state : KeyedArray} {key : String} :
    keyIndexLast state key = none ↔ ∀ r ∈ state, r.1 ≠ key := by
  induction state with
  | nil => simp [keyIndexLast]
  | cons r rest ih =>
    obtain ⟨k, w⟩ := r
    simp only [keyIndexLast]
    cases hrest : keyIndexLast rest key with
    | some j =>
      simp only [hrest]
      constructor
      · intro h; simp at h
      · intro h
        exact absurd (ih.mpr fun r' hr' => h r' (List.mem_cons_of_mem _ hr'))
          (by simp [hrest])
    | none =>
      simp only [hrest]
      by_cases hk : k = key
      · rw [if_pos hk]
        constructor
        · intro h; simp at h
        · intro h
          exact absurd hk (h (k, w) (List.mem_cons_self _ _))
      · rw [if_neg hk]
        constructor
        · intro _ r' hr'
          rcases List.mem_cons.mp hr' with heq | hmem
          · rw [heq]; exact hk
          · exact ih.mp hrest r' hmem
        · intro _; rfl

theorem lastRowWithKey_none_of_keyIndexLast_none {state : KeyedArray} {key : String}
    (h : keyIndexLast state key = none) : lastRowWithKey state key = none := by
  induction state with
  | nil => rfl
  | cons r rest ih =>
    simp only [keyIndexLast] at h
    cases hrest : keyIndexLast rest key with
    | some j => rw [hrest] at h; simp at h
    | none =>
      rw [hrest] at h
      simp only [lastRowWithKey, ih hrest]
      by_cases hr : r.1 = key
      · rw [if_pos hr] at h; simp at h
      · rw [if_neg hr]

theorem set_getD {α : Type} : ∀ (l : List α) (i : Nat) (x d : α), i < l.length →
    (l.set i x).getD i d = x := by
  intro l
  induction l with
  | nil => intro i x d h; simp at h
  | cons a rest ih =>
    intro i x d h
    cases i with
    | zero => rfl
    | succ j =>
      simpa [List.getD] using ih j x d (Nat.lt_of_succ_lt_succ h)

theorem set_self {α : Type} : ∀ (l : List α) (i : Nat) (d : α), i < l.length →
    l.set i (l.getD i d) = l := by
  intro l
  induction l with
  | nil => intro i d h; simp at h
  | cons a rest ih =>
    intro i d h
    cases i with
    | zero => simp [List.getD]
    | succ j =>
      simpa [List.getD] using ih j d (Nat.lt_of_succ_lt_succ h)

theorem keyIndexLast_set_keys : ∀ {state : KeyedArray} {key : String} {i : Nat},
    keyIndexLast state key = some i → ∀ (props' : Props),
    (state.set i (key, props')).map Prod.fst = state.map Prod.fst := by
  intro state
  induction state with
  | nil => intro key i h props'; simp [keyIndexLast] at h
  | cons r rest ih =>
    intro key i h props'
    obtain ⟨k, w⟩ := r
    simp only [keyIndexLast] at h
    cases hrest : keyIndexLast rest key with
    | some j =>
      rw [hrest] at h
      obtain rfl : i = j + 1 := by simpa using h.symm
      simp [ih hrest props']
    | none =>
      rw [hrest] at h
      by_cases hk : k = key
      · rw [if_pos hk] at h
        obtain rfl : i = 0 := by simpa using h.symm
        simp [hk]
      · rw [if_neg hk] at h; simp at h

theorem keyIndexLast_congr : ∀ {state state' : KeyedArray},
    state.map Prod.fst = state'.map Prod.fst →
    ∀ q, keyIndexLast state q = keyIndexLast state' q := by
  intro state
  induction state with
  | nil =>
    intro state' h q
    cases state' with
    | nil => rfl
    | cons _ _ => simp at h
  | cons r rest ih =>
    intro state' h q
    cases state' with
    | nil => simp at h
    | cons r' rest' =>
      simp only [List.map_cons, List.cons.injEq] at h
      simp only [keyIndexLast]
      rw [ih h.2 q, h.1]

theorem lastRowWithKey_set : ∀ {state : KeyedArray} {key : String} {i : Nat},
    keyIndexLast state key = some i → ∀ (props' : Props) (q : String),
    lastRowWithKey (state.set i (key, props')) q =
      if q = key then some (key, props') else lastRowWithKey state q := by
  intro state
  induction state with
  | nil => intro key i h props' q; simp [keyIndexLast] at h
  | cons r rest ih =>
    intro key i h props' q
    obtain ⟨k, w⟩ := r
    simp only [keyIndexLast] at h
    cases hrest : keyIndexLast rest key with
    | some j =>
      rw [hrest] at h
      obtain rfl : i = j + 1 := by simpa using h.symm
      by_cases hq : q = key
      · simp only [List.set_cons_succ, lastRowWithKey, ih hrest props' q, if_pos hq]
      · simp only [List.set_cons_succ, lastRowWithKey, ih hrest props' q, if_neg hq]
    | none =>
      rw [hrest] at h
      by_cases hk : k = key
      · rw [if_pos hk] at h
        obtain rfl : i = 0 := by simpa using h.symm
        subst hk
        have hnone := lastRowWithKey_none_of_keyIndexLast_none hrest
        by_cases hq : q = k
        · subst hq
          simp [lastRowWithKey, hnone]
        · simp only [List.set_cons_zero, lastRowWithKey, if_neg hq]
          cases hq' : lastRowWithKey rest q with
          | some r' => rfl
          | none =>
            rw [if_neg (fun hh : k = q => hq hh.symm),
              if_neg (fun hh : k = q => hq hh.symm)]
      · rw [if_neg hk] at h; simp at h

theorem lastRowWithKey_append (state : KeyedArray) (k : String) (v : Props) (q : String) :
    lastRowWithKey (state ++ [(k, v)]) q =
      if q = k then some (k, v) else lastRowWithKey state q := by
  induction state with
  | nil =>
    by_cases hq : q = k
    · simp [lastRowWithKey, hq]
    · simp [lastRowWithKey, hq, Ne.symm hq]
  | cons r rest ih =>
    by_cases hq : q = k
    · simp only [List.cons_append, lastRowWithKey, List.append_eq, ih, if_pos hq]
    · simp only [List.cons_append, lastRowWithKey, List.append_eq, ih, if_neg hq]

theorem lastRowWithKey_filter_ne (state : KeyedArray) (key q : String) :
    lastRowWithKey (state.filter fun r => r.1 ≠ key) q =
      if q = key then none else lastRowWithKey state q := by
  induction state with
  | nil => by_cases hq : q = key <;> simp [lastRowWithKey, hq]
  | cons r rest ih =>
    by_cases hr : r.1 = key
    · rw [List.filter_cons_of_neg (by simp [hr])]
      rw [ih]
      by_cases hq : q = key
      · rw [if_pos hq, if_pos hq]
      · rw [if_neg hq, if_neg hq]
        simp only [lastRowWithKey]
        cases hq' : lastRowWithKey rest q with
        | some r' => rfl
        | none =>
          rw [if_neg (fun hh : r.1 = q => hq (hh.symm.trans hr))]
    · rw [List.filter_cons_of_pos (by simp [hr])]
      simp only [lastRowWithKey, ih]
      by_cases hq : q = key
      · rw [if_pos hq, if_pos hq]
        rw [if_neg (fun hh : r.1 = q => hr (hh.trans hq))]
      · rw [if_neg hq, if_neg hq]

theorem filter_ne_eq_self {state : KeyedArray} {key : String}
    (h : ∀ r ∈ state, r.1 ≠ key) : (state.filter fun r => r.1 ≠ key) = state :=
  List.filter_eq_self.mpr fun r hr => by simpa using h r hr

theorem rowsAt_cons (state : KeyedArray) (s : String) (sp : List String)
    (p : String) (kp : List String) :
    rowsAt state (s :: sp) (p :: kp) =
      match lastRowWithKey state p with
      | none => none
      | some r => rowsAt (getArr r.2 s) sp kp := by
  simp only [rowsAt]
  cases h : keyIndexLast state p with
  | none => rw [lastRowWithKey_none_of_keyIndexLast_none h]
  | some i =>
    obtain ⟨-, -, hlast⟩ := keyIndexLast_spec h
    rw [hlast]

theorem targetKeyAbsent_nil {state : KeyedArray} {k : String}
    (h : targetKeyAbsent state [] [] k = true) : keyIndexLast state k = none := by
  simp only [targetKeyAbsent, rowsAt] at h
  cases h' : keyIndexLast state k with
  | none => rfl
  | some i => rw [h'] at h; simp at h

theorem segsResolved_cons {state : KeyedArray} {s : String} {sp : List String}
    {p : String} {kp : List String}
    (h : segsResolved state (s :: sp) (p :: kp) = true) :
    ∃ i rows, keyIndexLast state p = some i ∧
      lookupProp (state.getD i ("", [])).2 s = some (.varr rows) ∧
      getArr (state.getD i ("", [])).2 s = rows ∧
      segsResolved rows sp kp = true := by
  cases hidx : keyIndexLast state p with
  | none => simp only [segsResolved, hidx, Bool.false_eq_true] at h
  | some i =>
    cases hlk : lookupProp (state.getD i ("", [])).2 s with
    | none => simp only [segsResolved, hidx, hlk, Bool.false_eq_true] at h
    | some v =>
      cases v with
      | varr rows =>
        refine ⟨i, rows, rfl, hlk, ?_, ?_⟩
        · simp only [getArr, hlk]
        · simpa only [segsResolved, hidx, hlk] using h
      | vnum q => simp only [segsResolved, hidx, hlk, Bool.false_eq_true] at h
      | vstr s' => simp only [segsResolved, hidx, hlk, Bool.false_eq_true] at h
      | vbool b => simp only [segsResolved, hidx, hlk, Bool.false_eq_true] at h
      | vnull => simp only [segsResolved, hidx, hlk, Bool.false_eq_true] at h
      | vundef => simp only [segsResolved, hidx, hlk, Bool.false_eq_true] at h

theorem targetKeyAbsent_cons {state : KeyedArray} {s : String} {sp : List String}
    {p : String} {kp : List String} {k : String} {i : Nat} {rows : KeyedArray}
    (hidx : keyIndexLast state p = some i)
    (hget : getArr (state.getD i ("", [])).2 s = rows)
    (h : targetKeyAbsent state (s :: sp) (p :: kp) k = true) :
    targetKeyAbsent rows sp kp k = true := by
  simp only [targetKeyAbsent, rowsAt, hidx, hget] at h
  exact h

/-- With every parent resolved and each segment present, a set-back of the
row the lookup found restores the array. -/
theorem set_found_self {state : KeyedArray} {p : String} {i : Nat}
    (hidx : keyIndexLast state p = some i) :
    state.set i (p, (state.getD i ("", [])).2) = state := by
  obtain ⟨hlt, hkey, -⟩ := keyIndexLast_spec hidx
  have : (p, (state.getD i ("", [])).2) = state.getD i ("", []) := by
    rw [← hkey]
  rw [this, set_self state i ("", []) hlt]

theorem remove_missing_target_unchanged : ∀ (sp kp : List String) (state : KeyedArray)
    (k : String), segsResolved state sp kp = true → targetKeyAbsent state sp kp k = true →
    removeFromKeyedArray state sp kp k = .ok (state, false) := by
  intro sp
  induction sp with
  | nil =>
    intro kp state k hres habs
    cases kp with
    | cons p kp' => simp [segsResolved] at hres
    | nil =>
      have hnone := targetKeyAbsent_nil habs
      simp only [removeFromKeyedArray]
      simp [List.filter_eq_self]
      intro a b hab
      exact keyIndexLast_none_iff.mp hnone (a, b) hab
  | cons s sp' ih =>
    intro kp state k hres habs
    cases kp with
    | nil => simp [segsResolved] at hres
    | cons p kp' =>
      obtain ⟨i, rows, hidx, hlk, hget, hres'⟩ := segsResolved_cons hres
      have habs' := targetKeyAbsent_cons hidx hget habs
      have hrec := ih kp' rows k hres' habs'
      simp only [removeFromKeyedArray, hidx]
      rw [hget, hrec]
      simp only [Except.map]
      rw [setProp_lookup_self _ _ _ hlk, set_found_self hidx]

theorem modify_missing_target_unchanged : ∀ (sp kp : List String) (state : KeyedArray)
    (k n : String) (v : Val), segsResolved state sp kp = true →
    targetKeyAbsent state sp kp k = true →
    modifyInKeyedArray state sp kp k n v = .ok (state, true) := by
  intro sp
  induction sp with
  | nil =>
    intro kp state k n v hres habs
    cases kp with
    | cons p kp' => simp [segsResolved] at hres
    | nil =>
      have hnone := targetKeyAbsent_nil habs
      simp [modifyInKeyedArray, hnone]
  | cons s sp' ih =>
    intro kp state k n v hres habs
    cases kp with
    | nil => simp [segsResolved] at hres
    | cons p kp' =>
      obtain ⟨i, rows, hidx, hlk, hget, hres'⟩ := segsResolved_cons hres
      have habs' := targetKeyAbsent_cons hidx hget habs
      have hrec := ih kp' rows k n v hres' habs'
      simp only [modifyInKeyedArray, hidx]
      rw [hget, hrec]
      simp only [Except.map]
      rw [setProp_lookup_self _ _ _ hlk, set_found_self hidx]

/-! ## C3 -/

/-- C3 counterexample: (1) a root-level remove of a missing key returns the
tree unchanged but does NOT log a warning; (2) a nested modify whose parents
resolve but whose target key is missing logs a warning yet CHANGES the tree
— the traversed segment property, absent before, is materialized as an
empty keyed array.  Both contradict the claim's "logs a warning and returns
the tree unchanged". -/
theorem missing_item_policy_counterexample :
    removeFromKeyedArray [] [] [] "k" = .ok ([], false) ∧
    modifyInKeyedArray [("p", [])] ["a"] ["p"] "k" "n" .vnull =
      .ok ([("p", [("a", .varr [])])], true) ∧
    ([("p", [("a", Val.varr [])])] : KeyedArray) ≠ [("p", [])] := by
  refine ⟨rfl, rfl, by simp⟩

/-- C3 amended: an add targeting a non-root segment path whose parent key is
not found throws the error "Path references unknown item when setting
state".  A remove or modify whose (first-level) parent key is not found logs
a warning and returns the tree unchanged.  When every parent resolves and
the traversed segment properties are present but the TARGET key is missing,
a remove returns the tree unchanged WITHOUT logging, and a modify logs a
warning and returns the tree unchanged.  (When a traversed segment property
is absent, a skipped remove or modify can additionally materialize it as an
empty array — see the counterexample.) -/
theorem missing_item_policy :
    (∀ (state : KeyedArray) (s : String) (sp : List String) (p : String)
       (kp : List String) (k : String) (props : Props),
      keyIndexLast state p = none →
      addToKeyedArray state (s :: sp) (p :: kp) k props =
        .error "Path references unknown item when setting state") ∧
    (∀ (state : KeyedArray) (s : String) (sp : List String) (p : String)
       (kp : List String) (k : String),
      keyIndexLast state p = none →
      removeFromKeyedArray state (s :: sp) (p :: kp) k = .ok (state, true)) ∧
    (∀ (state : KeyedArray) (s : String) (sp : List String) (p : String)
       (kp : List String) (k n : String) (v : Val),
      keyIndexLast state p = none →
      modifyInKeyedArray state (s :: sp) (p :: kp) k n v = .ok (state, true)) ∧
    (∀ (sp kp : List String) (state : KeyedArray) (k : String),
      segsResolved state sp kp = true → targetKeyAbsent state sp kp k = true →
      removeFromKeyedArray state sp kp k = .ok (state, false)) ∧
    (∀ (sp kp : List String) (state : KeyedArray) (k n : String) (v : Val),
      segsResolved state sp kp = true → targetKeyAbsent state sp kp k = true →
      modifyInKeyedArray state sp kp k n v = .ok (state, true)) := by
  refine ⟨?_, ?_, ?_, remove_missing_target_unchanged, modify_missing_target_unchanged⟩
  · intro state s sp p kp k props h
    simp [addToKeyedArray, h]
  · intro state s sp p kp k h
    simp [removeFromKeyedArray, h]
  · intro state s sp p kp k n v h
    simp [modifyInKeyedArray, h]

/-- Witness for C3 (amended) at concrete inputs. -/
theorem missing_item_policy_witness :
    addToKeyedArray [] ["a"] ["p"] "k" [] =
      .error "Path references unknown item when setting state" ∧
    removeFromKeyedArray [] ["a"] ["p"] "k" = .ok ([], true) ∧
    modifyInKeyedArray [] ["a"] ["p"] "k" "n" .vnull = .ok ([], true) ∧
    removeFromKeyedArray [("p", [("a", .varr [])])] ["a"] ["p"] "k" =
      .ok ([("p", [("a", .varr [])])], false) ∧
    modifyInKeyedArray [("p", [("a", .varr [])])] ["a"] ["p"] "k" "n" .vnull =
      .ok ([("p", [("a", .varr [])])], true) := by
  refine ⟨missing_item_policy.1 [] "a" [] "p" [] "k" [] rfl,
    missing_item_policy.2.1 [] "a" [] "p" [] "k" rfl,
    missing_item_policy.2.2.1 [] "a" [] "p" [] "k" "n" .vnull rfl,
    missing_item_policy.2.2.2.1 ["a"] ["p"] [("p", [("a", .varr [])])] "k" rfl rfl,
    missing_item_policy.2.2.2.2 ["a"] ["p"] [("p", [("a", .varr [])])] "k" "n" .vnull rfl rfl⟩

/-! ## C5 -/

/-- C5 counterexample: the parent row `"p"` exists and the key `"k"` is not
among the target siblings, yet add followed by remove does not restore the
original tree — the segment property `"a"`, absent before, is left behind as
an empty keyed array. -/
theorem add_remove_roundtrip_counterexample :
    (addToKeyedArray [("p", [])] ["a"] ["p"] "k" []).bind
      (fun t => removeFromKeyedArray t ["a"] ["p"] "k") =
      .ok ([("p", [("a", .varr [])])], false) ∧
    ([("p", [("a", Val.varr [])])] : KeyedArray) ≠ [("p", [])] := by
  refine ⟨rfl, by simp⟩

/-- C5 amended: for every tree whose parents along the path resolve AND
whose traversed segment properties are present as arrays, and every key not
already among the target siblings, `removeFromKeyedArray` undoes
`addToKeyedArray` exactly (and the removal logs no warning). -/
theorem add_remove_roundtrip : ∀ (sp kp : List String) (state : KeyedArray)
    (k : String) (props : Props),
    segsResolved state sp kp = true → targetKeyAbsent state sp kp k = true →
    (addToKeyedArray state sp kp k props).bind
      (fun t => removeFromKeyedArray t sp kp k) = .ok (state, false) := by
  intro sp
  induction sp with
  | nil =>
    intro kp state k props hres habs
    cases kp with
    | cons p kp' => simp [segsResolved] at hres
    | nil =>
      have hnone := targetKeyAbsent_nil habs
      simp only [addToKeyedArray, removeFromKeyedArray]
      simp [Except.bind, List.filter_append, List.filter_eq_self]
      intro a b hab
      exact keyIndexLast_none_iff.mp hnone (a, b) hab
  | cons s sp' ih =>
    intro kp state k props hres habs
    cases kp with
    | nil => simp [segsResolved] at hres
    | cons p kp' =>
      obtain ⟨i, rows, hidx, hlk, hget, hres'⟩ := segsResolved_cons hres
      have habs' := targetKeyAbsent_cons hidx hget habs
      have hcomp := ih kp' rows k props hres' habs'
      cases hadd : addToKeyedArray rows sp' kp' k props with
      | error e => rw [hadd] at hcomp; simp [Except.bind] at hcomp
      | ok rows' =>
        rw [hadd] at hcomp
        have hrem : removeFromKeyedArray rows' sp' kp' k = .ok (rows, false) := by
          simpa [Except.bind] using hcomp
        have hlt := (keyIndexLast_spec hidx).1
        have hkeys := keyIndexLast_set_keys hidx
          (setProp (state.getD i ("", [])).2 s (.varr rows'))
        have hidx' : keyIndexLast (state.set i
            (p, setProp (state.getD i ("", [])).2 s (.varr rows'))) p = some i := by
          rw [keyIndexLast_congr hkeys p]
          exact hidx
        have hgetD : (state.set i
            (p, setProp (state.getD i ("", [])).2 s (.varr rows'))).getD i ("", []) =
            (p, setProp (state.getD i ("", [])).2 s (.varr rows')) :=
          set_getD _ i _ ("", []) hlt
        have haddouter : addToKeyedArray state (s :: sp') (p :: kp') k props =
            .ok (state.set i (p, setProp (state.getD i ("", [])).2 s (.varr rows'))) := by
          simp only [addToKeyedArray, hidx]
          rw [hget, hadd]
          rfl
        have hremouter : removeFromKeyedArray
            (state.set i (p, setProp (state.getD i ("", [])).2 s (.varr rows')))
            (s :: sp') (p :: kp') k = .ok (state, false) := by
          simp only [removeFromKeyedArray, hidx', hgetD]
          rw [getArr_setProp, if_pos rfl, hrem]
          simp only [Except.map]
          rw [setProp_setProp, setProp_lookup_self _ _ _ hlk, List.set_set,
            set_found_self hidx]
        rw [haddouter]
        simpa [Except.bind] using hremouter

/-- Witness for C5 (amended) at a concrete tree. -/
theorem add_remove_roundtrip_witness :
    (addToKeyedArray [("p", [("a", .varr [])])] ["a"] ["p"] "k" []).bind
      (fun t => removeFromKeyedArray t ["a"] ["p"] "k") =
      .ok ([("p", [("a", .varr [])])], false) :=
  add_remove_roundtrip ["a"] ["p"] [("p", [("a", .varr [])])] "k" [] rfl rfl

/-! ## C4 toolkit -/

theorem keysAt_nil : ∀ (sp kp : List String), keysAt [] sp kp = [] := by
  intro sp kp
  cases sp with
  | nil =>
    cases kp with
    | nil => rfl
    | cons q kp' => rfl
  | cons s sp' =>
    cases kp with
    | nil => rfl
    | cons q kp' => rfl

theorem keysAt_congr {t t' : KeyedArray} {sp kp : List String}
    (h : rowsAt t' sp kp = rowsAt t sp kp) : keysAt t' sp kp = keysAt t sp kp := by
  simp [keysAt, h]

/-- Effect of a successful `addToKeyedArray` on the keys at EVERY location:
at the target location the new key is appended, everywhere else the keys do
not grow (a freshly added row exposes only empty nested arrays because the
props carry no keyed arrays). -/
theorem addToKeyedArray_keysAt : ∀ (sp kp : List String) (state t' : KeyedArray)
    (k : String) (props : Props), propsScalar props = true →
    addToKeyedArray state sp kp k props = .ok t' →
    ∀ (sp' kp' : List String),
      List.Sublist (keysAt t' sp' kp')
        (keysAt state sp' kp' ++ if sp = sp' ∧ kp = kp' then [k] else []) := by
  intro sp
  induction sp with
  | nil =>
    intro kp state t' k props hprops hadd sp' kp'
    cases kp with
    | cons p kp₀ => simp [addToKeyedArray] at hadd
    | nil =>
      simp only [addToKeyedArray] at hadd
      rw [if_neg (fun hc : ([] : List String) ≠ [] => hc rfl)] at hadd
      obtain rfl : state ++ [(k, props)] = t' := by simpa using hadd
      cases sp' with
      | nil =>
        cases kp' with
        | nil =>
          have hkeys : keysAt (state ++ [(k, props)]) [] [] =
              keysAt state [] [] ++ [k] := by
            simp [keysAt, rowsAt]
          rw [hkeys]
          have hcond : (([] : List String) = [] ∧ ([] : List String) = []) := ⟨rfl, rfl⟩
          rw [if_pos hcond]
        | cons q kp₂ => exact List.nil_sublist _
      | cons s' sp₂ =>
        cases kp' with
        | nil => exact List.nil_sublist _
        | cons q kp₂ =>
          by_cases hq : q = k
          · subst hq
            have hrows : rowsAt (state ++ [(q, props)]) (s' :: sp₂) (q :: kp₂) =
                rowsAt (getArr props s') sp₂ kp₂ := by
              rw [rowsAt_cons, lastRowWithKey_append, if_pos rfl]
            rw [propsScalar_getArr props s' hprops] at hrows
            have hz : keysAt (state ++ [(q, props)]) (s' :: sp₂) (q :: kp₂) =
                keysAt [] sp₂ kp₂ := by
              simp [keysAt, hrows]
            rw [hz, keysAt_nil]
            exact List.nil_sublist _
          · have hrows : rowsAt (state ++ [(k, props)]) (s' :: sp₂) (q :: kp₂) =
                rowsAt state (s' :: sp₂) (q :: kp₂) := by
              rw [rowsAt_cons, rowsAt_cons, lastRowWithKey_append, if_neg hq]
            rw [keysAt_congr hrows]
            exact List.sublist_append_left _ _
  | cons s₀ spR ih =>
    intro kp state t' k props hprops hadd sp' kp'
    cases kp with
    | nil => simp [addToKeyedArray] at hadd
    | cons p₀ kpR =>
      cases hidx : keyIndexLast state p₀ with
      | none => simp [addToKeyedArray, hidx] at hadd
      | some i =>
        simp only [addToKeyedArray, hidx] at hadd
        cases hinner : addToKeyedArray (getArr (state.getD i ("", [])).2 s₀) spR kpR
            k props with
        | error e => rw [hinner] at hadd; simp [Except.map] at hadd
        | ok arr' =>
          rw [hinner] at hadd
          simp only [Except.map, Except.ok.injEq] at hadd
          subst hadd
          have hitem := keyIndexLast_spec hidx
          cases sp' with
          | nil =>
            cases kp' with
            | nil =>
              have hkeys := keyIndexLast_set_keys hidx
                (setProp (state.getD i ("", [])).2 s₀ (.varr arr'))
              have hz : keysAt (state.set i
                  (p₀, setProp (state.getD i ("", [])).2 s₀ (.varr arr'))) [] [] =
                  keysAt state [] [] := by
                show List.map Prod.fst (state.set i
                  (p₀, setProp (state.getD i ("", [])).2 s₀ (.varr arr'))) =
                  List.map Prod.fst state
                exact hkeys
              rw [hz]
              exact List.sublist_append_left _ _
            | cons q kp₂ => exact List.nil_sublist _
          | cons s' sp₂ =>
            cases kp' with
            | nil => exact List.nil_sublist _
            | cons q kp₂ =>
              have hset := lastRowWithKey_set hidx
                (setProp (state.getD i ("", [])).2 s₀ (.varr arr')) q
              by_cases hq : q = p₀
              · subst hq
                rw [if_pos rfl] at hset
                have hstate_last : lastRowWithKey state q = some (state.getD i ("", [])) :=
                  hitem.2.2
                by_cases hs : s' = s₀
                · subst hs
                  have hL : rowsAt (state.set i
                      (q, setProp (state.getD i ("", [])).2 s' (.varr arr')))
                      (s' :: sp₂) (q :: kp₂) = rowsAt arr' sp₂ kp₂ := by
                    rw [rowsAt_cons, hset]
                    show rowsAt (getArr (setProp (state.getD i ("", [])).2 s'
                      (.varr arr')) s') sp₂ kp₂ = rowsAt arr' sp₂ kp₂
                    rw [getArr_setProp, if_pos rfl]
                  have hR : rowsAt state (s' :: sp₂) (q :: kp₂) =
                      rowsAt (getArr (state.getD i ("", [])).2 s') sp₂ kp₂ := by
                    rw [rowsAt_cons, hstate_last]
                  have hgoalL : keysAt (state.set i
                      (q, setProp (state.getD i ("", [])).2 s' (.varr arr')))
                      (s' :: sp₂) (q :: kp₂) = keysAt arr' sp₂ kp₂ := by
                    unfold keysAt
                    rw [hL]
                  have hgoalR : keysAt state (s' :: sp₂) (q :: kp₂) =
                      keysAt (getArr (state.getD i ("", [])).2 s') sp₂ kp₂ := by
                    unfold keysAt
                    rw [hR]
                  rw [hgoalL, hgoalR]
                  have hiff : (s' :: spR = s' :: sp₂ ∧ q :: kpR = q :: kp₂) ↔
                      (spR = sp₂ ∧ kpR = kp₂) := by simp
                  rw [if_congr hiff rfl rfl]
                  exact ih kpR (getArr (state.getD i ("", [])).2 s') arr' k props
                    hprops hinner sp₂ kp₂
                · have hL : rowsAt (state.set i
                      (q, setProp (state.getD i ("", [])).2 s₀ (.varr arr')))
                      (s' :: sp₂) (q :: kp₂) =
                      rowsAt (getArr (state.getD i ("", [])).2 s') sp₂ kp₂ := by
                    rw [rowsAt_cons, hset]
                    show rowsAt (getArr (setProp (state.getD i ("", [])).2 s₀
                      (.varr arr')) s') sp₂ kp₂ = _
                    rw [getArr_setProp, if_neg hs]
                  have hR : rowsAt state (s' :: sp₂) (q :: kp₂) =
                      rowsAt (getArr (state.getD i ("", [])).2 s') sp₂ kp₂ := by
                    rw [rowsAt_cons, hstate_last]
                  rw [keysAt_congr (hL.trans hR.symm)]
                  exact List.sublist_append_left _ _
              · rw [if_neg hq] at hset
                have hrows : rowsAt (state.set i
                    (p₀, setProp (state.getD i ("", [])).2 s₀ (.varr arr')))
                    (s' :: sp₂) (q :: kp₂) = rowsAt state (s' :: sp₂) (q :: kp₂) := by
                  rw [rowsAt_cons, rowsAt_cons, hset]
                rw [keysAt_congr hrows]
                exact List.sublist_append_left _ _

/-- Effect of a successful `removeFromKeyedArray` on the keys at EVERY
location: keys never grow. -/
theorem removeFromKeyedArray_keysAt : ∀ (sp kp : List String) (state t' : KeyedArray)
    (k : String) (w : Bool),
    removeFromKeyedArray state sp kp k = .ok (t', w) →
    ∀ (sp' kp' : List String),
      List.Sublist (keysAt t' sp' kp') (keysAt state sp' kp') := by
  intro sp
  induction sp with
  | nil =>
    intro kp state t' k w hrem sp' kp'
    cases kp with
    | cons p kp₀ => simp [removeFromKeyedArray] at hrem
    | nil =>
      simp only [removeFromKeyedArray] at hrem
      rw [if_neg (fun hc : ([] : List String) ≠ [] => hc rfl)] at hrem
      obtain ⟨rfl, rfl⟩ : state.filter (fun r => r.1 ≠ k) = t' ∧ false = w := by
        simpa [Prod.ext_iff] using hrem
      cases sp' with
      | nil =>
        cases kp' with
        | nil => exact (List.filter_sublist state).map Prod.fst
        | cons q kp₂ => exact List.nil_sublist _
      | cons s' sp₂ =>
        cases kp' with
        | nil => exact List.nil_sublist _
        | cons q kp₂ =>
          by_cases hq : q = k
          · have hrows : rowsAt (state.filter fun r => r.1 ≠ k) (s' :: sp₂) (q :: kp₂) =
                none := by
              rw [rowsAt_cons, lastRowWithKey_filter_ne, if_pos hq]
            have hz : keysAt (state.filter fun r => r.1 ≠ k) (s' :: sp₂) (q :: kp₂) = [] := by
              unfold keysAt
              rw [hrows]
              rfl
            rw [hz]
            exact List.nil_sublist _
          · have hrows : rowsAt (state.filter fun r => r.1 ≠ k) (s' :: sp₂) (q :: kp₂) =
                rowsAt state (s' :: sp₂) (q :: kp₂) := by
              rw [rowsAt_cons, rowsAt_cons, lastRowWithKey_filter_ne, if_neg hq]
            rw [keysAt_congr hrows]
  | cons s₀ spR ih =>
    intro kp state t' k w hrem sp' kp'
    cases kp with
    | nil => simp [removeFromKeyedArray] at hrem
    | cons p₀ kpR =>
      cases hidx : keyIndexLast state p₀ with
      | none =>
        simp only [removeFromKeyedArray, hidx] at hrem
        obtain ⟨rfl, rfl⟩ : state = t' ∧ true = w := by simpa [Prod.ext_iff] using hrem
        exact List.Sublist.refl _
      | some i =>
        simp only [removeFromKeyedArray, hidx] at hrem
        cases hinner : removeFromKeyedArray (getArr (state.getD i ("", [])).2 s₀)
            spR kpR k with
        | error e => rw [hinner] at hrem; simp [Except.map] at hrem
        | ok res =>
          obtain ⟨arr₂, w₂⟩ := res
          rw [hinner] at hrem
          simp only [Except.map, Except.ok.injEq] at hrem
          obtain ⟨rfl, rfl⟩ : state.set i
              (p₀, setProp (state.getD i ("", [])).2 s₀ (.varr arr₂)) = t' ∧ w₂ = w := by
            simpa [Prod.ext_iff] using hrem
          have hitem := keyIndexLast_spec hidx
          cases sp' with
          | nil =>
            cases kp' with
            | nil =>
              have hkeys := keyIndexLast_set_keys hidx
                (setProp (state.getD i ("", [])).2 s₀ (.varr arr₂))
              have hz : keysAt (state.set i
                  (p₀, setProp (state.getD i ("", [])).2 s₀ (.varr arr₂))) [] [] =
                  keysAt state [] [] := by
                show List.map Prod.fst (state.set i
                  (p₀, setProp (state.getD i ("", [])).2 s₀ (.varr arr₂))) =
                  List.map Prod.fst state
                exact hkeys
              rw [hz]
            | cons q kp₂ => exact List.nil_sublist _
          | cons s' sp₂ =>
            cases kp' with
            | nil => exact List.nil_sublist _
            | cons q kp₂ =>
              have hset := lastRowWithKey_set hidx
                (setProp (state.getD i ("", [])).2 s₀ (.varr arr₂)) q
              by_cases hq : q = p₀
              · subst hq
                rw [if_pos rfl] at hset
                have hstate_last : lastRowWithKey state q =
                    some (state.getD i ("", [])) := hitem.2.2
                by_cases hs : s' = s₀
                · subst hs
                  have hL : rowsAt (state.set i
                      (q, setProp (state.getD i ("", [])).2 s' (.varr arr₂)))
                      (s' :: sp₂) (q :: kp₂) = rowsAt arr₂ sp₂ kp₂ := by
                    rw [rowsAt_cons, hset]
                    show rowsAt (getArr (setProp (state.getD i ("", [])).2 s'
                      (.varr arr₂)) s') sp₂ kp₂ = rowsAt arr₂ sp₂ kp₂
                    rw [getArr_setProp, if_pos rfl]
                  have hR : rowsAt state (s' :: sp₂) (q :: kp₂) =
                      rowsAt (getArr (state.getD i ("", [])).2 s') sp₂ kp₂ := by
                    rw [rowsAt_cons, hstate_last]
                  have hgoalL : keysAt (state.set i
                      (q, setProp (state.getD i ("", [])).2 s' (.varr arr₂)))
                      (s' :: sp₂) (q :: kp₂) = keysAt arr₂ sp₂ kp₂ := by
                    unfold keysAt
                    rw [hL]
                  have hgoalR : keysAt state (s' :: sp₂) (q :: kp₂) =
                      keysAt (getArr (state.getD i ("", [])).2 s') sp₂ kp₂ := by
                    unfold keysAt
                    rw [hR]
                  rw [hgoalL, hgoalR]
                  exact ih kpR (getArr (state.getD i ("", [])).2 s') arr₂ k w₂
                    hinner sp₂ kp₂
                · have hL : rowsAt (state.set i
                      (q, setProp (state.getD i ("", [])).2 s₀ (.varr arr₂)))
                      (s' :: sp₂) (q :: kp₂) =
                      rowsAt (getArr (state.getD i ("", [])).2 s') sp₂ kp₂ := by
                    rw [rowsAt_cons, hset]
                    show rowsAt (getArr (setProp (state.getD i ("", [])).2 s₀
                      (.varr arr₂)) s') sp₂ kp₂ = _
                    rw [getArr_setProp, if_neg hs]
                  have hR : rowsAt state (s' :: sp₂) (q :: kp₂) =
                      rowsAt (getArr (state.getD i ("", [])).2 s') sp₂ kp₂ := by
                    rw [rowsAt_cons, hstate_last]
                  rw [keysAt_congr (hL.trans hR.symm)]
              · rw [if_neg hq] at hset
                have hrows : rowsAt (state.set i
                    (p₀, setProp (state.getD i ("", [])).2 s₀ (.varr arr₂)))
                    (s' :: sp₂) (q :: kp₂) = rowsAt state (s' :: sp₂) (q :: kp₂) := by
                  rw [rowsAt_cons, rowsAt_cons, hset]
                rw [keysAt_congr hrows]

/-- Effect of a successful `modifyInKeyedArray` on the keys at EVERY
location: keys never grow (a scalar write can at most blank out a nested
array). -/
theorem modifyInKeyedArray_keysAt : ∀ (sp kp : List String) (state t' : KeyedArray)
    (k n : String) (v : Val) (w : Bool), v.isScalar = true →
    modifyInKeyedArray state sp kp k n v = .ok (t', w) →
    ∀ (sp' kp' : List String),
      List.Sublist (keysAt t' sp' kp') (keysAt state sp' kp') := by
  intro sp
  induction sp with
  | nil =>
    intro kp state t' k n v w hv hmod sp' kp'
    cases kp with
    | cons p kp₀ => simp [modifyInKeyedArray] at hmod
    | nil =>
      simp only [modifyInKeyedArray] at hmod
      rw [if_neg (fun hc : ([] : List String) ≠ [] => hc rfl)] at hmod
      cases hidx : keyIndexLast state k with
      | none =>
        simp only [hidx] at hmod
        obtain ⟨rfl, rfl⟩ : state = t' ∧ true = w := by simpa [Prod.ext_iff] using hmod
        exact List.Sublist.refl _
      | some i =>
        simp only [hidx] at hmod
        obtain ⟨rfl, rfl⟩ : state.set i
            (k, setProp (state.getD i ("", [])).2 n v) = t' ∧ false = w := by
          simpa [Prod.ext_iff] using hmod
        have hitem := keyIndexLast_spec hidx
        cases sp' with
        | nil =>
          cases kp' with
          | nil =>
            have hkeys := keyIndexLast_set_keys hidx
              (setProp (state.getD i ("", [])).2 n v)
            have hz : keysAt (state.set i
                (k, setProp (state.getD i ("", [])).2 n v)) [] [] =
                keysAt state [] [] := by
              show List.map Prod.fst (state.set i
                (k, setProp (state.getD i ("", [])).2 n v)) = List.map Prod.fst state
              exact hkeys
            rw [hz]
          | cons q kp₂ => exact List.nil_sublist _
        | cons s' sp₂ =>
          cases kp' with
          | nil => exact List.nil_sublist _
          | cons q kp₂ =>
            have hset := lastRowWithKey_set hidx
              (setProp (state.getD i ("", [])).2 n v) q
            by_cases hq : q = k
            · subst hq
              rw [if_pos rfl] at hset
              have hstate_last : lastRowWithKey state q =
                  some (state.getD i ("", [])) := hitem.2.2
              by_cases hs : s' = n
              · subst hs
                have hL : rowsAt (state.set i
                    (q, setProp (state.getD i ("", [])).2 s' v))
                    (s' :: sp₂) (q :: kp₂) = rowsAt [] sp₂ kp₂ := by
                  rw [rowsAt_cons, hset]
                  show rowsAt (getArr (setProp (state.getD i ("", [])).2 s' v) s')
                    sp₂ kp₂ = rowsAt [] sp₂ kp₂
                  rw [getArr_setProp_scalar _ _ _ _ hv, if_pos rfl]
                have hz : keysAt (state.set i
                    (q, setProp (state.getD i ("", [])).2 s' v))
                    (s' :: sp₂) (q :: kp₂) = keysAt [] sp₂ kp₂ := by
                  unfold keysAt
                  rw [hL]
                rw [hz, keysAt_nil]
                exact List.nil_sublist _
              · have hL : rowsAt (state.set i
                    (q, setProp (state.getD i ("", [])).2 n v))
                    (s' :: sp₂) (q :: kp₂) =
                    rowsAt (getArr (state.getD i ("", [])).2 s') sp₂ kp₂ := by
                  rw [rowsAt_cons, hset]
                  show rowsAt (getArr (setProp (state.getD i ("", [])).2 n v) s')
                    sp₂ kp₂ = _
                  rw [getArr_setProp_scalar _ _ _ _ hv, if_neg hs]
                have hR : rowsAt state (s' :: sp₂) (q :: kp₂) =
                    rowsAt (getArr (state.getD i ("", [])).2 s') sp₂ kp₂ := by
                  rw [rowsAt_cons, hstate_last]
                rw [keysAt_congr (hL.trans hR.symm)]
            · rw [if_neg hq] at hset
              have hrows : rowsAt (state.set i
                  (k, setProp (state.getD i ("", [])).2 n v))
                  (s' :: sp₂) (q :: kp₂) = rowsAt state (s' :: sp₂) (q :: kp₂) := by
                rw [rowsAt_cons, rowsAt_cons, hset]
              rw [keysAt_congr hrows]
  | cons s₀ spR ih =>
    intro kp state t' k n v w hv hmod sp' kp'
    cases kp with
    | nil => simp [modifyInKeyedArray] at hmod
    | cons p₀ kpR =>
      cases hidx : keyIndexLast state p₀ with
      | none =>
        simp only [modifyInKeyedArray, hidx] at hmod
        obtain ⟨rfl, rfl⟩ : state = t' ∧ true = w := by simpa [Prod.ext_iff] using hmod
        exact List.Sublist.refl _
      | some i =>
        simp only [modifyInKeyedArray, hidx] at hmod
        cases hinner : modifyInKeyedArray (getArr (state.getD i ("", [])).2 s₀)
            spR kpR k n v with
        | error e => rw [hinner] at hmod; simp [Except.map] at hmod
        | ok res =>
          obtain ⟨arr₂, w₂⟩ := res
          rw [hinner] at hmod
          simp only [Except.map, Except.ok.injEq] at hmod
          obtain ⟨rfl, rfl⟩ : state.set i
              (p₀, setProp (state.getD i ("", [])).2 s₀ (.varr arr₂)) = t' ∧ w₂ = w := by
            simpa [Prod.ext_iff] using hmod
          have hitem := keyIndexLast_spec hidx
          cases sp' with
          | nil =>
            cases kp' with
            | nil =>
              have hkeys := keyIndexLast_set_keys hidx
                (setProp (state.getD i ("", [])).2 s₀ (.varr arr₂))
              have hz : keysAt (state.set i
                  (p₀, setProp (state.getD i ("", [])).2 s₀ (.varr arr₂))) [] [] =
                  keysAt state [] [] := by
                show List.map Prod.fst (state.set i
                  (p₀, setProp (state.getD i ("", [])).2 s₀ (.varr arr₂))) =
                  List.map Prod.fst state
                exact hkeys
              rw [hz]
            | cons q kp₂ => exact List.nil_sublist _
          | cons s' sp₂ =>
            cases kp' with
            | nil => exact List.nil_sublist _
            | cons q kp₂ =>
              have hset := lastRowWithKey_set hidx
                (setProp (state.getD i ("", [])).2 s₀ (.varr arr₂)) q
              by_cases hq : q = p₀
              · subst hq
                rw [if_pos rfl] at hset
                have hstate_last : lastRowWithKey state q =
                    some (state.getD i ("", [])) := hitem.2.2
                by_cases hs : s' = s₀
                · subst hs
                  have hL : rowsAt (state.set i
                      (q, setProp (state.getD i ("", [])).2 s' (.varr arr₂)))
                      (s' :: sp₂) (q :: kp₂) = rowsAt arr₂ sp₂ kp₂ := by
                    rw [rowsAt_cons, hset]
                    show rowsAt (getArr (setProp (state.getD i ("", [])).2 s'
                      (.varr arr₂)) s') sp₂ kp₂ = rowsAt arr₂ sp₂ kp₂
                    rw [getArr_setProp, if_pos rfl]
                  have hR : rowsAt state (s' :: sp₂) (q :: kp₂) =
                      rowsAt (getArr (state.getD i ("", [])).2 s') sp₂ kp₂ := by
                    rw [rowsAt_cons, hstate_last]
                  have hgoalL : keysAt (state.set i
                      (q, setProp (state.getD i ("", [])).2 s' (.varr arr₂)))
                      (s' :: sp₂) (q :: kp₂) = keysAt arr₂ sp₂ kp₂ := by
                    unfold keysAt
                    rw [hL]
                  have hgoalR : keysAt state (s' :: sp₂) (q :: kp₂) =
                      keysAt (getArr (state.getD i ("", [])).2 s') sp₂ kp₂ := by
                    unfold keysAt
                    rw [hR]
                  rw [hgoalL, hgoalR]
                  exact ih kpR (getArr (state.getD i ("", [])).2 s') arr₂ k n v w₂
                    hv hinner sp₂ kp₂
                · have hL : rowsAt (state.set i
                      (q, setProp (state.getD i ("", [])).2 s₀ (.varr arr₂)))
                      (s' :: sp₂) (q :: kp₂) =
                      rowsAt (getArr (state.getD i ("", [])).2 s') sp₂ kp₂ := by
                    rw [rowsAt_cons, hset]
                    show rowsAt (getArr (setProp (state.getD i ("", [])).2 s₀
                      (.varr arr₂)) s') sp₂ kp₂ = _
                    rw [getArr_setProp, if_neg hs]
                  have hR : rowsAt state (s' :: sp₂) (q :: kp₂) =
                      rowsAt (getArr (state.getD i ("", [])).2 s') sp₂ kp₂ := by
                    rw [rowsAt_cons, hstate_last]
                  rw [keysAt_congr (hL.trans hR.symm)]
              · rw [if_neg hq] at hset
                have hrows : rowsAt (state.set i
                    (p₀, setProp (state.getD i ("", [])).2 s₀ (.varr arr₂)))
                    (s' :: sp₂) (q :: kp₂) = rowsAt state (s' :: sp₂) (q :: kp₂) := by
                  rw [rowsAt_cons, rowsAt_cons, hset]
                rw [keysAt_congr hrows]

/-- A successful add appends the new row at the end of the target array. -/
theorem addToKeyedArray_target : ∀ (sp kp : List String) (state t' : KeyedArray)
    (k : String) (props : Props),
    addToKeyedArray state sp kp k props = .ok t' →
    ∃ tgt, rowsAt state sp kp = some tgt ∧
      rowsAt t' sp kp = some (tgt ++ [(k, props)]) := by
  intro sp
  induction sp with
  | nil =>
    intro kp state t' k props hadd
    cases kp with
    | cons p kp₀ => simp [addToKeyedArray] at hadd
    | nil =>
      simp only [addToKeyedArray] at hadd
      rw [if_neg (fun hc : ([] : List String) ≠ [] => hc rfl)] at hadd
      obtain rfl : state ++ [(k, props)] = t' := by simpa using hadd
      exact ⟨state, rfl, rfl⟩
  | cons s₀ spR ih =>
    intro kp state t' k props hadd
    cases kp with
    | nil => simp [addToKeyedArray] at hadd
    | cons p₀ kpR =>
      cases hidx : keyIndexLast state p₀ with
      | none => simp [addToKeyedArray, hidx] at hadd
      | some i =>
        simp only [addToKeyedArray, hidx] at hadd
        cases hinner : addToKeyedArray (getArr (state.getD i ("", [])).2 s₀)
            spR kpR k props with
        | error e => rw [hinner] at hadd; simp [Except.map] at hadd
        | ok arr' =>
          rw [hinner] at hadd
          simp only [Except.map, Except.ok.injEq] at hadd
          subst hadd
          obtain ⟨tgt, h1, h2⟩ := ih kpR _ arr' k props hinner
          have hitem := keyIndexLast_spec hidx
          have hset := lastRowWithKey_set hidx
            (setProp (state.getD i ("", [])).2 s₀ (.varr arr')) p₀
          rw [if_pos rfl] at hset
          refine ⟨tgt, ?_, ?_⟩
          · rw [rowsAt_cons, hitem.2.2]
            exact h1
          · rw [rowsAt_cons, hset]
            show rowsAt (getArr (setProp (state.getD i ("", [])).2 s₀
              (.varr arr')) s₀) spR kpR = _
            rw [getArr_setProp, if_pos rfl]
            exact h2

/-- A successful remove erases exactly the matching-key rows of the target
array and keeps the rest in order. -/
theorem removeFromKeyedArray_target : ∀ (sp kp : List String) (state t' : KeyedArray)
    (k : String) (w : Bool) (tgt : KeyedArray),
    removeFromKeyedArray state sp kp k = .ok (t', w) →
    rowsAt state sp kp = some tgt →
    rowsAt t' sp kp = some (tgt.filter fun r => r.1 ≠ k) := by
  intro sp
  induction sp with
  | nil =>
    intro kp state t' k w tgt hrem hrows
    cases kp with
    | cons p kp₀ => simp [removeFromKeyedArray] at hrem
    | nil =>
      obtain rfl : state = tgt := by simpa [rowsAt] using hrows
      simp only [removeFromKeyedArray] at hrem
      rw [if_neg (fun hc : ([] : List String) ≠ [] => hc rfl)] at hrem
      obtain ⟨rfl, rfl⟩ : state.filter (fun r => r.1 ≠ k) = t' ∧ false = w := by
        simpa [Prod.ext_iff] using hrem
      rfl
  | cons s₀ spR ih =>
    intro kp state t' k w tgt hrem hrows
    cases kp with
    | nil => simp [removeFromKeyedArray] at hrem
    | cons p₀ kpR =>
      cases hidx : keyIndexLast state p₀ with
      | none =>
        simp only [rowsAt, hidx] at hrows
        exact absurd hrows (by simp)
      | some i =>
        have hrows' : rowsAt (getArr (state.getD i ("", [])).2 s₀) spR kpR =
            some tgt := by
          simpa only [rowsAt, hidx] using hrows
        simp only [removeFromKeyedArray, hidx] at hrem
        cases hinner : removeFromKeyedArray (getArr (state.getD i ("", [])).2 s₀)
            spR kpR k with
        | error e => rw [hinner] at hrem; simp [Except.map] at hrem
        | ok res =>
          obtain ⟨arr₂, w₂⟩ := res
          rw [hinner] at hrem
          simp only [Except.map, Except.ok.injEq] at hrem
          obtain ⟨rfl, rfl⟩ : state.set i
              (p₀, setProp (state.getD i ("", [])).2 s₀ (.varr arr₂)) = t' ∧ w₂ = w := by
            simpa [Prod.ext_iff] using hrem
          have hrec := ih kpR _ arr₂ k w₂ tgt hinner hrows'
          have hset := lastRowWithKey_set hidx
            (setProp (state.getD i ("", [])).2 s₀ (.varr arr₂)) p₀
          rw [if_pos rfl] at hset
          rw [rowsAt_cons, hset]
          show rowsAt (getArr (setProp (state.getD i ("", [])).2 s₀
            (.varr arr₂)) s₀) spR kpR = _
          rw [getArr_setProp, if_pos rfl]
          exact hrec

/-- A successful modify leaves every row of the target array at its index:
the key sequence is unchanged. -/
theorem modifyInKeyedArray_target : ∀ (sp kp : List String) (state t' : KeyedArray)
    (k n : String) (v : Val) (w : Bool) (tgt : KeyedArray),
    modifyInKeyedArray state sp kp k n v = .ok (t', w) →
    rowsAt state sp kp = some tgt →
    ∃ tgt', rowsAt t' sp kp = some tgt' ∧ tgt'.map Prod.fst = tgt.map Prod.fst := by
  intro sp
  induction sp with
  | nil =>
    intro kp state t' k n v w tgt hmod hrows
    cases kp with
    | cons p kp₀ => simp [modifyInKeyedArray] at hmod
    | nil =>
      obtain rfl : state = tgt := by simpa [rowsAt] using hrows
      simp only [modifyInKeyedArray] at hmod
      rw [if_neg (fun hc : ([] : List String) ≠ [] => hc rfl)] at hmod
      cases hidx : keyIndexLast state k with
      | none =>
        simp only [hidx] at hmod
        obtain ⟨rfl, rfl⟩ : state = t' ∧ true = w := by simpa [Prod.ext_iff] using hmod
        exact ⟨state, rfl, rfl⟩
      | some i =>
        simp only [hidx] at hmod
        obtain ⟨rfl, rfl⟩ : state.set i
            (k, setProp (state.getD i ("", [])).2 n v) = t' ∧ false = w := by
          simpa [Prod.ext_iff] using hmod
        exact ⟨_, rfl, keyIndexLast_set_keys hidx _⟩
  | cons s₀ spR ih =>
    intro kp state t' k n v w tgt hmod hrows
    cases kp with
    | nil => simp [modifyInKeyedArray] at hmod
    | cons p₀ kpR =>
      cases hidx : keyIndexLast state p₀ with
      | none =>
        simp only [rowsAt, hidx] at hrows
        exact absurd hrows (by simp)
      | some i =>
        have hrows' : rowsAt (getArr (state.getD i ("", [])).2 s₀) spR kpR =
            some tgt := by
          simpa only [rowsAt, hidx] using hrows
        simp only [modifyInKeyedArray, hidx] at hmod
        cases hinner : modifyInKeyedArray (getArr (state.getD i ("", [])).2 s₀)
            spR kpR k n v with
        | error e => rw [hinner] at hmod; simp [Except.map] at hmod
        | ok res =>
          obtain ⟨arr₂, w₂⟩ := res
          rw [hinner] at hmod
          simp only [Except.map, Except.ok.injEq] at hmod
          obtain ⟨rfl, rfl⟩ : state.set i
              (p₀, setProp (state.getD i ("", [])).2 s₀ (.varr arr₂)) = t' ∧ w₂ = w := by
            simpa [Prod.ext_iff] using hmod
          obtain ⟨tgt', hr1, hr2⟩ := ih kpR _ arr₂ k n v w₂ tgt hinner hrows'
          have hset := lastRowWithKey_set hidx
            (setProp (state.getD i ("", [])).2 s₀ (.varr arr₂)) p₀
          rw [if_pos rfl] at hset
          refine ⟨tgt', ?_, hr2⟩
          rw [rowsAt_cons, hset]
          show rowsAt (getArr (setProp (state.getD i ("", [])).2 s₀
            (.varr arr₂)) s₀) spR kpR = _
          rw [getArr_setProp, if_pos rfl]
          exact hr1

theorem addKeysAt_cons (sp kp : List String) (op : BatchedOperation)
    (ops : List BatchedOperation) :
    addKeysAt sp kp (op :: ops) = addKeysAt sp kp [op] ++ addKeysAt sp kp ops := by
  cases op with
  | add sp₀ kp₀ k props =>
    by_cases h : sp₀ = sp ∧ kp₀ = kp <;> simp [addKeysAt, List.filterMap_cons, h]
  | remove sp₀ kp₀ k => simp [addKeysAt, List.filterMap_cons]
  | modify sp₀ kp₀ k n v => simp [addKeysAt, List.filterMap_cons]

theorem applyOp_keysAt {state t' : KeyedArray} {w : Bool} {op : BatchedOperation}
    (hop : opScalar op = true) (h : applyOp state op = .ok (t', w)) :
    ∀ (sp kp : List String),
      List.Sublist (keysAt t' sp kp) (keysAt state sp kp ++ addKeysAt sp kp [op]) := by
  intro sp kp
  cases op with
  | add sp₀ kp₀ k props =>
    simp only [applyOp] at h
    cases hadd : addToKeyedArray state sp₀ kp₀ k props with
    | error e => rw [hadd] at h; simp [Except.map] at h
    | ok t₁ =>
      rw [hadd] at h
      simp only [Except.map, Except.ok.injEq] at h
      obtain ⟨rfl, rfl⟩ : t₁ = t' ∧ false = w := by simpa [Prod.ext_iff] using h
      have hres := addToKeyedArray_keysAt sp₀ kp₀ state t₁ k props
        (by simpa [opScalar] using hop) hadd sp kp
      have heq : addKeysAt sp kp [BatchedOperation.add sp₀ kp₀ k props] =
          if sp₀ = sp ∧ kp₀ = kp then [k] else [] := by
        by_cases hc : sp₀ = sp ∧ kp₀ = kp <;> simp [addKeysAt, hc]
      rw [heq]
      exact hres
  | remove sp₀ kp₀ k =>
    simp only [applyOp] at h
    have hres := removeFromKeyedArray_keysAt sp₀ kp₀ state t' k w h sp kp
    have heq : addKeysAt sp kp [BatchedOperation.remove sp₀ kp₀ k] = [] := by
      simp [addKeysAt]
    rw [heq, List.append_nil]
    exact hres
  | modify sp₀ kp₀ k n v =>
    simp only [applyOp] at h
    have hres := modifyInKeyedArray_keysAt sp₀ kp₀ state t' k n v w
      (by simpa [opScalar] using hop) h sp kp
    have heq : addKeysAt sp kp [BatchedOperation.modify sp₀ kp₀ k n v] = [] := by
      simp [addKeysAt]
    rw [heq, List.append_nil]
    exact hres

theorem applyOps_keysAt : ∀ (ops : List BatchedOperation) (state t' : KeyedArray)
    (w : Bool), (∀ op ∈ ops, opScalar op = true) →
    applyOps state ops = .ok (t', w) →
    ∀ (sp kp : List String),
      List.Sublist (keysAt t' sp kp) (keysAt state sp kp ++ addKeysAt sp kp ops) := by
  intro ops
  induction ops with
  | nil =>
    intro state t' w hops h sp kp
    obtain ⟨rfl, rfl⟩ : state = t' ∧ false = w := by
      simpa [applyOps, Prod.ext_iff] using h
    exact List.sublist_append_left _ _
  | cons op ops ih =>
    intro state t' w hops h sp kp
    simp only [applyOps] at h
    cases happ : applyOp state op with
    | error e => rw [happ] at h; simp [Except.bind] at h
    | ok res =>
      obtain ⟨t₁, w₁⟩ := res
      rw [happ] at h
      simp only [Except.bind] at h
      cases hrest : applyOps t₁ ops with
      | error e => rw [hrest] at h; simp [Except.map] at h
      | ok res' =>
        obtain ⟨t₂, w₂⟩ := res'
        rw [hrest] at h
        simp only [Except.map, Except.ok.injEq] at h
        obtain ⟨rfl, rfl⟩ : t₂ = t' ∧ (w₁ || w₂) = w := by
          simpa [Prod.ext_iff] using h
        have h1 := applyOp_keysAt (hops op (List.mem_cons_self _ _)) happ sp kp
        have h2 := ih t₁ t₂ w₂ (fun o ho => hops o (List.mem_cons_of_mem _ ho)) hrest sp kp
        have h3 : List.Sublist (keysAt t₁ sp kp ++ addKeysAt sp kp ops)
            ((keysAt state sp kp ++ addKeysAt sp kp [op]) ++ addKeysAt sp kp ops) :=
          h1.append (List.Sublist.refl _)
        have h4 := h2.trans h3
        rw [List.append_assoc] at h4
        rw [addKeysAt_cons]
        exact h4

/-! ## C4 -/

/-- C4: order stability of the materialized-tree transforms.
(1) A successful add appends the new row at the end of the target array;
(2) a successful remove erases exactly the matching-key rows of the target
array, preserving the order of the rest; (3) a successful modify leaves
every row's key at its index; and (4) for any batch of scalar-payload
operations applied successfully to the initially empty tree, the keys of
every keyed array in the result form a sublist of the keys of the add
operations targeting that location, in application order — so the relative
order of surviving rows matches the order of their adds. -/
theorem keyedArray_order_stability :
    (∀ (sp kp : List String) (state t' : KeyedArray) (k : String) (props : Props),
      addToKeyedArray state sp kp k props = .ok t' →
      ∃ tgt, rowsAt state sp kp = some tgt ∧
        rowsAt t' sp kp = some (tgt ++ [(k, props)])) ∧
    (∀ (sp kp : List String) (state t' : KeyedArray) (k : String) (w : Bool)
       (tgt : KeyedArray),
      removeFromKeyedArray state sp kp k = .ok (t', w) →
      rowsAt state sp kp = some tgt →
      rowsAt t' sp kp = some (tgt.filter fun r => r.1 ≠ k)) ∧
    (∀ (sp kp : List String) (state t' : KeyedArray) (k n : String) (v : Val)
       (w : Bool) (tgt : KeyedArray),
      modifyInKeyedArray state sp kp k n v = .ok (t', w) →
      rowsAt state sp kp = some tgt →
      ∃ tgt', rowsAt t' sp kp = some tgt' ∧ tgt'.map Prod.fst = tgt.map Prod.fst) ∧
    (∀ (ops : List BatchedOperation) (t' : KeyedArray) (w : Bool),
      (∀ op ∈ ops, opScalar op = true) → applyOps [] ops = .ok (t', w) →
      ∀ (sp kp : List String),
        List.Sublist (keysAt t' sp kp) (addKeysAt sp kp ops)) := by
  refine ⟨addToKeyedArray_target, removeFromKeyedArray_target,
    modifyInKeyedArray_target, ?_⟩
  intro ops t' w hops h sp kp
  have hres := applyOps_keysAt ops [] t' w hops h sp kp
  rwa [keysAt_nil, List.nil_append] at hres

/-- Witness for C4 at a concrete batch: add "a", add "b", remove "a" leaves
the root keys ["b"], a sublist of the add keys ["a", "b"]. -/
theorem keyedArray_order_stability_witness :
    List.Sublist (keysAt [("b", [])] [] [])
      (addKeysAt [] [] [.add [] [] "a" [], .add [] [] "b" [], .remove [] [] "a"]) ∧
    (∃ tgt, rowsAt [("a", [])] [] [] = some tgt ∧
      rowsAt [("a", []), ("b", [])] [] [] = some (tgt ++ [("b", [])])) := by
  constructor
  · exact keyedArray_order_stability.2.2.2
      [.add [] [] "a" [], .add [] [] "b" [], .remove [] [] "a"]
      [("b", [])] false (by intro op hop; fin_cases hop <;> rfl) rfl [] []
  · exact keyedArray_order_stability.1 [] [] [("a", [])] [("a", []), ("b", [])]
      "b" [] rfl

/-! ## C6 toolkit -/

theorem mapGet_split {α : Type} : ∀ {l : List (String × α)} {k : String} {v : α},
    mapGet l k = some v → ∃ l₁ l₂, l = l₁ ++ (k, v) :: l₂ := by
  intro l
  induction l with
  | nil => intro k v h; simp [mapGet] at h
  | cons p rest ih =>
    intro k v h
    obtain ⟨k', w⟩ := p
    simp only [mapGet] at h
    by_cases hk : k' = k
    · rw [if_pos hk] at h
      obtain rfl : w = v := by simpa using h
      subst hk
      exact ⟨[], rest, rfl⟩
    · rw [if_neg hk] at h
      obtain ⟨l₁, l₂, rfl⟩ := ih h
      exact ⟨(k', w) :: l₁, l₂, rfl⟩

theorem nodup_split_ne {l₁ l₂ : List (String × NumVal)} {k : String} {v : NumVal}
    (hnodup : ((l₁ ++ (k, v) :: l₂).map Prod.fst).Nodup) :
    (∀ p ∈ l₁, p.1 ≠ k) ∧ (∀ p ∈ l₂, p.1 ≠ k) := by
  rw [List.map_append, List.map_cons, List.nodup_append] at hnodup
  obtain ⟨-, h2, h3⟩ := hnodup
  constructor
  · intro p hp heq
    exact h3 (List.mem_map_of_mem Prod.fst hp)
      (by rw [heq]; exact List.mem_cons_self _ _)
  · intro p hp heq
    rw [List.nodup_cons] at h2
    exact h2.1 (List.mem_map.mpr ⟨p, hp, heq⟩)

theorem filter_ne_split {l₁ l₂ : List (String × NumVal)} {k : String} {v : NumVal}
    (h1 : ∀ p ∈ l₁, p.1 ≠ k) (h2 : ∀ p ∈ l₂, p.1 ≠ k) :
    ((l₁ ++ (k, v) :: l₂).filter fun p => p.1 ≠ k) = l₁ ++ l₂ := by
  rw [List.filter_append, List.filter_cons]
  have hk : ¬ ((k, v).1 ≠ k) := by simp
  simp only [decide_eq_true_eq]
  rw [if_neg hk, List.filter_eq_self.mpr (fun p hp => by simpa using h1 p hp),
    List.filter_eq_self.mpr (fun p hp => by simpa using h2 p hp)]

theorem liveNumericValues_append (live more : List (String × NumVal)) :
    liveNumericValues (live ++ more) =
      liveNumericValues live ++ liveNumericValues more := by
  simp [liveNumericValues, List.filterMap_append]

theorem liveNumericValues_num (k : String) (q : Rat) :
    liveNumericValues [(k, NumVal.num q)] = [q] := rfl

theorem liveNumericValues_missing (k : String) :
    liveNumericValues [(k, NumVal.missing)] = [] := rfl

theorem liveNumericValues_nonNumeric (k : String) :
    liveNumericValues [(k, NumVal.nonNumeric)] = [] := rfl

theorem avgStateOf_append_num (live : List (String × NumVal)) (k : String) (q : Rat) :
    avgStateOf (live ++ [(k, NumVal.num q)]) =
      some ⟨((avgStateOf live).getD ⟨0, 0, none⟩).sum + q,
        ((avgStateOf live).getD ⟨0, 0, none⟩).count + 1,
        some ((((avgStateOf live).getD ⟨0, 0, none⟩).sum + q) /
          (((((avgStateOf live).getD ⟨0, 0, none⟩).count + 1 : Int)) : Rat))⟩ := by
  simp only [avgStateOf]
  rw [liveNumericValues_append, liveNumericValues_num]
  by_cases h : (liveNumericValues live).length = 0
  · have hnil := List.length_eq_zero.mp h
    rw [hnil]
    simp [AverageState.mk.injEq]
  · rw [if_neg h, if_neg (by simp : ¬ (liveNumericValues live ++ [q]).length = 0)]
    simp only [Option.getD_some, Option.some.injEq, AverageState.mk.injEq,
      List.sum_append, List.length_append, List.sum_cons, List.sum_nil,
      List.length_cons, List.length_nil]
    refine ⟨by ring, by push_cast; ring, ?_⟩
    push_cast
    ring_nf

theorem newAverageOf_avgStateOf (live : List (String × NumVal)) :
    newAverageOf (avgStateOf live) = freshAverage live := by
  by_cases h : (liveNumericValues live).length = 0
  · simp [newAverageOf, avgStateOf, freshAverage, h]
  · have hpos : (0 : Int) < ((liveNumericValues live).length : Int) := by
      exact_mod_cast Nat.pos_of_ne_zero h
    simp [newAverageOf, avgStateOf, freshAverage, h, hpos]

theorem freshAverage_congr {a b : List (String × NumVal)}
    (h : liveNumericValues a = liveNumericValues b) :
    freshAverage a = freshAverage b := by
  simp [freshAverage, h]

theorem avgStateOf_congr {a b : List (String × NumVal)}
    (h : liveNumericValues a = liveNumericValues b) :
    avgStateOf a = avgStateOf b := by
  simp [avgStateOf, h]

theorem averageHandleItemAdded_inv {live : List (String × NumVal)}
    {st : AverageParentState} (hinv : st.averageState = avgStateOf live)
    (k : String) (v : NumVal) :
    (averageHandleItemAdded false st k v).1.averageState =
      avgStateOf (live ++ [(k, v)]) ∧
    (averageHandleItemAdded false st k v).2 =
      [(st.aggregateValue, freshAverage (live ++ [(k, v)]))] := by
  cases v with
  | num q =>
    have h1 : (averageHandleItemAdded false st k (NumVal.num q)).1.averageState =
        some ⟨(st.averageState.getD ⟨0, 0, none⟩).sum + q,
          (st.averageState.getD ⟨0, 0, none⟩).count + 1,
          some (((st.averageState.getD ⟨0, 0, none⟩).sum + q) /
            (((st.averageState.getD ⟨0, 0, none⟩).count + 1 : Int) : Rat))⟩ := rfl
    have h2 : (averageHandleItemAdded false st k (NumVal.num q)).2 =
        [(st.aggregateValue, newAverageOf
          (averageHandleItemAdded false st k (NumVal.num q)).1.averageState)] := rfl
    have hstate : (averageHandleItemAdded false st k (NumVal.num q)).1.averageState =
        avgStateOf (live ++ [(k, NumVal.num q)]) := by
      rw [h1, avgStateOf_append_num, hinv]
    refine ⟨hstate, ?_⟩
    rw [h2, hstate, newAverageOf_avgStateOf]
  | missing =>
    have hvals : liveNumericValues (live ++ [(k, NumVal.missing)]) =
        liveNumericValues live := by
      rw [liveNumericValues_append, liveNumericValues_missing, List.append_nil]
    have h1 : (averageHandleItemAdded false st k NumVal.missing).1.averageState =
        st.averageState := rfl
    have h2 : (averageHandleItemAdded false st k NumVal.missing).2 =
        [(st.aggregateValue, newAverageOf
          (averageHandleItemAdded false st k NumVal.missing).1.averageState)] := rfl
    refine ⟨?_, ?_⟩
    · rw [h1, hinv, avgStateOf_congr hvals]
    · rw [h2, h1, hinv, newAverageOf_avgStateOf, freshAverage_congr hvals]
  | nonNumeric =>
    have hvals : liveNumericValues (live ++ [(k, NumVal.nonNumeric)]) =
        liveNumericValues live := by
      rw [liveNumericValues_append, liveNumericValues_nonNumeric, List.append_nil]
    have h1 : (averageHandleItemAdded false st k NumVal.nonNumeric).1.averageState =
        st.averageState := rfl
    have h2 : (averageHandleItemAdded false st k NumVal.nonNumeric).2 =
        [(st.aggregateValue, newAverageOf
          (averageHandleItemAdded false st k NumVal.nonNumeric).1.averageState)] := rfl
    refine ⟨?_, ?_⟩
    · rw [h1, hinv, avgStateOf_congr hvals]
    · rw [h2, h1, hinv, newAverageOf_avgStateOf, freshAverage_congr hvals]

theorem averageHandleItemRemoved_num_red (S : Rat) (C : Int) (Av : Option Rat)
    (agg : Option Rat) (iv : List (String × Rat)) (k : String) (q : Rat) :
    averageHandleItemRemoved false ⟨some ⟨S, C, Av⟩, agg, iv⟩ k (NumVal.num q) =
      (if C - 1 = 0 then
        (⟨none, none, iv⟩, [(agg, none)])
      else
        (⟨some ⟨S - q, C - 1, some ((S - q) / ((C - 1 : Int) : Rat))⟩,
          if 0 < C - 1 then some ((S - q) / ((C - 1 : Int) : Rat)) else none, iv⟩,
          [(agg, if 0 < C - 1 then some ((S - q) / ((C - 1 : Int) : Rat)) else none)])) := by
  by_cases hc : C - 1 = 0
  · simp [averageHandleItemRemoved, hc]
  · simp [averageHandleItemRemoved, hc]

theorem averageHandleItemRemoved_missing_red (ast : Option AverageState)
    (agg : Option Rat) (iv : List (String × Rat)) (k : String) :
    averageHandleItemRemoved false ⟨ast, agg, iv⟩ k NumVal.missing =
      (⟨ast, newAverageOf ast, iv⟩, [(agg, newAverageOf ast)]) := by
  cases ast with
  | none => simp [averageHandleItemRemoved, newAverageOf]
  | some state =>
    by_cases hc : state.count = 0
    · simp [averageHandleItemRemoved, newAverageOf, hc]
    · simp [averageHandleItemRemoved, newAverageOf, hc]

theorem averageHandleItemRemoved_nonNumeric_red (ast : Option AverageState)
    (agg : Option Rat) (iv : List (String × Rat)) (k : String) :
    averageHandleItemRemoved false ⟨ast, agg, iv⟩ k NumVal.nonNumeric =
      (⟨ast, newAverageOf ast, iv⟩, [(agg, newAverageOf ast)]) := by
  cases ast with
  | none => simp [averageHandleItemRemoved, newAverageOf]
  | some state =>
    by_cases hc : state.count = 0
    · simp [averageHandleItemRemoved, newAverageOf, hc]
    · simp [averageHandleItemRemoved, newAverageOf, hc]

theorem averageHandleItemRemoved_inv {live : List (String × NumVal)}
    {st : AverageParentState} (hinv : st.averageState = avgStateOf live)
    (hnodup : (live.map Prod.fst).Nodup) {k : String} {v : NumVal}
    (hlive : mapGet live k = some v) :
    (averageHandleItemRemoved false st k v).1.averageState =
      avgStateOf (live.filter fun p => p.1 ≠ k) ∧
    (averageHandleItemRemoved false st k v).2 =
      [(st.aggregateValue, freshAverage (live.filter fun p => p.1 ≠ k))] := by
  obtain ⟨l₁, l₂, rfl⟩ := mapGet_split hlive
  obtain ⟨hne1, hne2⟩ := nodup_split_ne hnodup
  have hfil : ((l₁ ++ (k, v) :: l₂).filter fun p => p.1 ≠ k) = l₁ ++ l₂ :=
    filter_ne_split hne1 hne2
  rw [hfil]
  obtain ⟨ast, agg, iv⟩ := st
  have hast : ast = avgStateOf (l₁ ++ (k, v) :: l₂) := hinv
  subst hast
  cases v with
  | num q =>
    have hA : liveNumericValues (l₁ ++ (k, NumVal.num q) :: l₂) =
        liveNumericValues l₁ ++ q :: liveNumericValues l₂ := by
      simp [liveNumericValues, List.filterMap_append, List.filterMap_cons]
    have hA' : liveNumericValues (l₁ ++ l₂) =
        liveNumericValues l₁ ++ liveNumericValues l₂ :=
      liveNumericValues_append _ _
    have hlen : ¬ (liveNumericValues (l₁ ++ (k, NumVal.num q) :: l₂)).length = 0 := by
      rw [hA]; simp
    have hsome : avgStateOf (l₁ ++ (k, NumVal.num q) :: l₂) =
        some ⟨(liveNumericValues l₁ ++ q :: liveNumericValues l₂).sum,
          ((liveNumericValues l₁ ++ q :: liveNumericValues l₂).length : Int),
          some ((liveNumericValues l₁ ++ q :: liveNumericValues l₂).sum /
            ((liveNumericValues l₁ ++ q :: liveNumericValues l₂).length : Rat))⟩ := by
      simp only [avgStateOf]
      rw [hA, if_neg (by simp)]
    have hsum : (liveNumericValues l₁ ++ q :: liveNumericValues l₂).sum - q =
        (liveNumericValues (l₁ ++ l₂)).sum := by
      rw [hA']
      simp [List.sum_append]
      ring
    have hcnt : ((liveNumericValues l₁ ++ q :: liveNumericValues l₂).length : Int) - 1 =
        ((liveNumericValues (l₁ ++ l₂)).length : Int) := by
      rw [hA']
      simp [List.length_append]
      omega
    rw [hsome, averageHandleItemRemoved_num_red]
    by_cases hc : ((liveNumericValues l₁ ++ q :: liveNumericValues l₂).length : Int) - 1 = 0
    · have hzero : (liveNumericValues (l₁ ++ l₂)).length = 0 := by
        have := hcnt
        omega
      have hnilAB : liveNumericValues (l₁ ++ l₂) = [] := List.length_eq_zero.mp hzero
      rw [if_pos hc]
      constructor
      · simp [avgStateOf, hnilAB]
      · simp [freshAverage, hnilAB]
    · have hposN : ¬ (liveNumericValues (l₁ ++ l₂)).length = 0 := by
        intro h0
        rw [h0] at hcnt
        omega
      have hpos : (0 : Int) <
          ((liveNumericValues l₁ ++ q :: liveNumericValues l₂).length : Int) - 1 := by
        rw [hcnt]
        exact_mod_cast Nat.pos_of_ne_zero hposN
      rw [if_neg hc]
      constructor
      · show some _ = _
        simp only [avgStateOf]
        rw [if_neg hposN, hsum, hcnt]
        norm_cast
      · show [(agg, if (0 : Int) < _ - 1 then _ else _)] = _
        rw [if_pos hpos]
        simp only [freshAverage]
        rw [if_neg hposN, hsum, hcnt]
        norm_cast
  | missing =>
    have hvals : liveNumericValues (l₁ ++ (k, NumVal.missing) :: l₂) =
        liveNumericValues (l₁ ++ l₂) := by
      simp [liveNumericValues, List.filterMap_append, List.filterMap_cons]
    rw [averageHandleItemRemoved_missing_red]
    exact ⟨avgStateOf_congr hvals, by
      rw [avgStateOf_congr hvals, newAverageOf_avgStateOf]⟩
  | nonNumeric =>
    have hvals : liveNumericValues (l₁ ++ (k, NumVal.nonNumeric) :: l₂) =
        liveNumericValues (l₁ ++ l₂) := by
      simp [liveNumericValues, List.filterMap_append, List.filterMap_cons]
    rw [averageHandleItemRemoved_nonNumeric_red]
    exact ⟨avgStateOf_congr hvals, by
      rw [avgStateOf_congr hvals, newAverageOf_avgStateOf]⟩

theorem getLast?_cons_of_ne_nil {α : Type} (x : α) : ∀ {l : List α}, l ≠ [] →
    (x :: l).getLast? = l.getLast? := by
  intro l h
  cases l with
  | nil => exact absurd rfl h
  | cons b t => exact List.getLast?_cons_cons

theorem emissionTrace_ne_nil {live : List (String × NumVal)} {events : List ChildEvent}
    (h : events ≠ []) : emissionTrace live events ≠ [] := by
  cases events with
  | nil => exact absurd rfl h
  | cons e es => cases e <;> simp [emissionTrace]

theorem emissionTrace_getLast : ∀ (events : List ChildEvent)
    (live : List (String × NumVal)), events ≠ [] →
    (emissionTrace live events).getLast? =
      some (freshAverage (liveAfter live events)) := by
  intro events
  induction events with
  | nil => intro live h; exact absurd rfl h
  | cons e es ih =>
    intro live _
    cases es with
    | nil => cases e <;> rfl
    | cons e₂ es₂ =>
      have hne : (e₂ :: es₂ : List ChildEvent) ≠ [] := by simp
      cases e with
      | added k v =>
        have htail := ih (live ++ [(k, v)]) hne
        rw [show emissionTrace live (ChildEvent.added k v :: e₂ :: es₂) =
          freshAverage (live ++ [(k, v)]) ::
            emissionTrace (live ++ [(k, v)]) (e₂ :: es₂) from rfl]
        rw [getLast?_cons_of_ne_nil _ (emissionTrace_ne_nil hne), htail]
        rfl
      | removed k v =>
        have htail := ih (live.filter fun p => p.1 ≠ k) hne
        rw [show emissionTrace live (ChildEvent.removed k v :: e₂ :: es₂) =
          freshAverage (live.filter fun p => p.1 ≠ k) ::
            emissionTrace (live.filter fun p => p.1 ≠ k) (e₂ :: es₂) from rfl]
        rw [getLast?_cons_of_ne_nil _ (emissionTrace_ne_nil hne), htail]
        rfl

theorem runAverageEvents_inv : ∀ (events : List ChildEvent)
    (live : List (String × NumVal)) (st : AverageParentState),
    wellFormedFrom live events = true → (live.map Prod.fst).Nodup →
    st.averageState = avgStateOf live →
    (runAverageEvents false st events).1.averageState =
      avgStateOf (liveAfter live events) ∧
    (runAverageEvents false st events).2.map Prod.snd = emissionTrace live events := by
  intro events
  induction events with
  | nil =>
    intro live st hwf hnodup hinv
    exact ⟨hinv, rfl⟩
  | cons e es ih =>
    intro live st hwf hnodup hinv
    cases e with
    | added k v =>
      simp only [wellFormedFrom, Bool.and_eq_true] at hwf
      obtain ⟨hfresh, hwf'⟩ := hwf
      have hfresh' : ∀ p ∈ live, p.1 ≠ k := by
        intro p hp
        have := List.all_eq_true.mp hfresh p hp
        simpa using this
      have hstep := averageHandleItemAdded_inv hinv k v
      have hnodup' : ((live ++ [(k, v)]).map Prod.fst).Nodup := by
        rw [List.map_append, List.nodup_append]
        refine ⟨hnodup, List.nodup_singleton _, ?_⟩
        intro a ha hb
        simp only [List.map_cons, List.map_nil, List.mem_cons,
          List.not_mem_nil, or_false] at hb
        obtain ⟨p, hp, rfl⟩ := List.mem_map.mp ha
        exact hfresh' p hp hb
      have hrest := ih (live ++ [(k, v)]) _ hwf' hnodup' hstep.1
      have hrun : runAverageEvents false st (ChildEvent.added k v :: es) =
          ((runAverageEvents false (averageHandleItemAdded false st k v).1 es).1,
           (averageHandleItemAdded false st k v).2 ++
           (runAverageEvents false (averageHandleItemAdded false st k v).1 es).2) := rfl
      rw [hrun]
      refine ⟨hrest.1, ?_⟩
      rw [List.map_append, hstep.2, hrest.2]
      rfl
    | removed k v =>
      simp only [wellFormedFrom, Bool.and_eq_true] at hwf
      obtain ⟨hget, hwf'⟩ := hwf
      have hget' : mapGet live k = some v := of_decide_eq_true hget
      have hstep := averageHandleItemRemoved_inv hinv hnodup hget'
      have hnodup' : (((live.filter fun p => p.1 ≠ k).map Prod.fst)).Nodup :=
        hnodup.sublist ((List.filter_sublist live).map Prod.fst)
      have hrest := ih (live.filter fun p => p.1 ≠ k) _ hwf' hnodup' hstep.1
      have hrun : runAverageEvents false st (ChildEvent.removed k v :: es) =
          ((runAverageEvents false (averageHandleItemRemoved false st k v).1 es).1,
           (averageHandleItemRemoved false st k v).2 ++
           (runAverageEvents false (averageHandleItemRemoved false st k v).1 es).2) := rfl
      rw [hrun]
      refine ⟨hrest.1, ?_⟩
      rw [List.map_append, hstep.2, hrest.2]
      rfl

/-! ## C6 -/

/-- C6: for an `AverageAggregateStep` over an immutable numeric property and
any well-formed sequence of child added/removed events under one parent
(each removed event carries the value of the matching added event), the
`newAverage` emitted with the LAST modified event equals the sum of the
numeric values of the currently live children divided by their count
(`freshAverage`), and is `none` (absent) when no live child has a numeric
value.  Numbers are exact rationals. -/
theorem averageAggregate_freshness (events : List ChildEvent)
    (hwf : wellFormedFrom [] events = true) (hne : events ≠ []) :
    ((runAverageEvents false ⟨none, none, []⟩ events).2.map Prod.snd).getLast? =
      some (freshAverage (liveAfter [] events)) := by
  have hinv : (⟨none, none, []⟩ : AverageParentState).averageState = avgStateOf [] := by
    simp [avgStateOf, liveNumericValues]
  have h := runAverageEvents_inv events [] ⟨none, none, []⟩ hwf (by simp) hinv
  rw [h.2]
  exact emissionTrace_getLast events [] hne

/-- Witness for C6: add 1 and 2 under one parent, then remove the 1; the
last emitted average is 2. -/
theorem averageAggregate_freshness_witness :
    ((runAverageEvents false ⟨none, none, []⟩
      [ChildEvent.added "a" (NumVal.num 1), ChildEvent.added "b" (NumVal.num 2),
       ChildEvent.removed "a" (NumVal.num 1)]).2.map Prod.snd).getLast? =
      some (some 2) := by
  rw [averageAggregate_freshness
    [ChildEvent.added "a" (NumVal.num 1), ChildEvent.added "b" (NumVal.num 2),
     ChildEvent.removed "a" (NumVal.num 1)] (by decide) (by simp)]
  have hlive : liveAfter [] [ChildEvent.added "a" (NumVal.num 1),
      ChildEvent.added "b" (NumVal.num 2), ChildEvent.removed "a" (NumVal.num 1)] =
      [("b", NumVal.num 2)] := rfl
  have hvals : liveNumericValues [("b", NumVal.num 2)] = [2] := rfl
  rw [hlive]
  norm_num [freshAverage, hvals]

/-! ## C9 -/

/-- C9: for a `MinMaxAggregateStep` whose aggregated property is immutable
(`isPropertyMutable = false`), every child added or removed event invokes
each registered parent-level modified handler exactly once, in registration
order — there is no old-equals-new deduplication.  The closed conjunct shows
a non-numeric added value that leaves the value multiset unchanged still
producing an emission with `oldAggregate = newAggregate = 5`. -/
theorem map_fst_const_pairing {α β : Type} (l : List α) (x : β) :
    (l.map fun h => (h, x)).map Prod.fst = l := by
  induction l with
  | nil => rfl
  | cons a t ih => simp [ih]

theorem minMaxAggregate_always_emits :
    (∀ (aggregateFn : List Rat → Rat) (modifiedHandlers : List String)
       (st : MinMaxParentState) (keyPath : List String) (itemKey : String)
       (value : NumVal),
      ((minMaxHandleItemAdded false aggregateFn modifiedHandlers st keyPath itemKey
        value).2.map Prod.fst = modifiedHandlers) ∧
      ((minMaxHandleItemRemoved false aggregateFn modifiedHandlers st keyPath itemKey
        value).2.map Prod.fst = modifiedHandlers)) ∧
    (minMaxHandleItemAdded false mathMin ["h"] ⟨[5], some 5, [("a", 5)]⟩ ["p"] "b"
        NumVal.nonNumeric).2 = [("h", [], "p", some 5, some 5)] := by
  refine ⟨fun f handlers st kp k v => ⟨?_, ?_⟩, ?_⟩
  · cases v with
    | num q => exact map_fst_const_pairing handlers _
    | missing => exact map_fst_const_pairing handlers _
    | nonNumeric => exact map_fst_const_pairing handlers _
  · cases v with
    | num q => exact map_fst_const_pairing handlers _
    | missing => exact map_fst_const_pairing handlers _
    | nonNumeric => exact map_fst_const_pairing handlers _
  · rfl

end Cascade
